import Mathlib

/-! Sequential vs. parallel sort: sequence descriptors and host utilities.

A shallow embedding of

* `Quicksort/data_types.cpp`: the setters of `HostGlobalSequence`,
  `DeviceGlobalSequence` and `LocalSequence`;
* `Radix Sort/utils_host.cpp`: `compareArrays` and `printTable`;
* `Bitonic Sort/main.cpp`: the driver that sorts a table twice and compares.

The two sorters that the driver calls are not among the sources. They are
modelled from the specification: the reference sorter as a stable sort, the
parallel sorter as the scheduler of the specification working on the
descriptors that the setters of `data_types.cpp` build.

`uint_t` (`uint32_t`) values are natural numbers, reduced modulo `2^32` where
the source does arithmetic on them; `data_t` (`int`) values are integers,
reduced to the two's complement range where the source does arithmetic.
-/

namespace Quicksort

/-! ## Machine integers -/

/-- Result of an `uint_t` (`uint32_t`) computation whose exact value is `x`. -/
def wrapUint (x : Int) : Nat := (x % 4294967296).toNat

/-- Result of a `data_t` (`int`, 32 bit two's complement) computation whose
exact value is `x`. -/
def wrapInt (x : Int) : Int := (x + 2147483648) % 4294967296 - 2147483648

/-! ## Data types -/

/-- Modelled from the spec: the declaration of the enum `TransferDirection` is
not among the sources. The spec calls it a direction bit, and
`Quicksort/data_types.h` documents the two values as
`false: dataInput -> dataBuffer, true: dataBuffer -> dataInput`. -/
inductive TransferDirection where
  | PRIMARY_MEM_TO_BUFFER
  | BUFFER_TO_PRIMARY_MEM
  deriving DecidableEq, Repr

/-- Integer value of an enumerator. -/
def TransferDirection.toNat : TransferDirection → Nat
  | .PRIMARY_MEM_TO_BUFFER => 0
  | .BUFFER_TO_PRIMARY_MEM => 1

/-- The cast `(TransferDirection) b` of a `bool`. -/
def TransferDirection.ofBool : Bool → TransferDirection
  | false => .PRIMARY_MEM_TO_BUFFER
  | true => .BUFFER_TO_PRIMARY_MEM

/-- The C++ operator `!` applied to an enumerator: true exactly when its
integer value is zero. -/
def TransferDirection.lnot (d : TransferDirection) : Bool := d.toNat == 0

/-- Modelled from the spec: the declaration of `struct HostGlobalSequence` is
not among the sources. The fields are those the setters assign, which are the
ones the spec lists for a host sequence (`start, length`, `oldStart, oldLength`,
`minVal, maxVal`, `direction`); positions are `uint_t` and bounds are `data_t`,
as the parameters of `setInitSeq`. -/
structure HostGlobalSequence where
  start : Nat
  length : Nat
  oldStart : Nat
  oldLength : Nat
  minVal : Int
  maxVal : Int
  direction : TransferDirection
  deriving DecidableEq, Repr

/-- Modelled from the spec: the declaration of `struct DeviceGlobalSequence` is
not among the sources. The fields are those `setFromHostSeq` assigns: the range
and direction of the host sequence, the `pivot`, the assigned thread blocks, and
the outputs of the partition pass (`offsetLower`, `offsetGreater`,
`greaterSeqMinVal`, `lowerSeqMaxVal`). -/
structure DeviceGlobalSequence where
  start : Nat
  length : Nat
  pivot : Int
  direction : TransferDirection
  startThreadBlockIdx : Nat
  threadBlockCounter : Nat
  offsetLower : Nat
  offsetGreater : Nat
  greaterSeqMinVal : Int
  lowerSeqMaxVal : Int
  deriving DecidableEq, Repr

/-- Modelled from the spec: the declaration of `struct LocalSequence` is not
among the sources. The spec gives the fields `{start, length, direction}`, the
ones its setters assign. -/
structure LocalSequence where
  start : Nat
  length : Nat
  direction : TransferDirection
  deriving DecidableEq, Repr

/-! ## `HostGlobalSequence` -/

/-- Method `HostGlobalSequence::setInitSeq`, statement by statement. -/
def HostGlobalSequence.setInitSeq (self : HostGlobalSequence) (tableLen : Nat)
    (initMinVal initMaxVal : Int) : HostGlobalSequence :=
  let s1 := { self with start := 0 }
  let s2 := { s1 with length := tableLen }
  let s3 := { s2 with oldStart := s2.start }
  let s4 := { s3 with oldLength := s3.length }
  let s5 := { s4 with minVal := initMinVal }
  let s6 := { s5 with maxVal := initMaxVal }
  { s6 with direction := TransferDirection.PRIMARY_MEM_TO_BUFFER }

/-- Method `HostGlobalSequence::setLowerSeq`, statement by statement. -/
def HostGlobalSequence.setLowerSeq (self globalSeqHost : HostGlobalSequence)
    (globalSeqDev : DeviceGlobalSequence) : HostGlobalSequence :=
  let s1 := { self with start := globalSeqHost.oldStart }
  let s2 := { s1 with length := globalSeqDev.offsetLower }
  let s3 := { s2 with oldStart := s2.start }
  let s4 := { s3 with oldLength := s3.length }
  let s5 := { s4 with minVal := globalSeqHost.minVal }
  let s6 := { s5 with maxVal := globalSeqDev.lowerSeqMaxVal }
  { s6 with direction := TransferDirection.ofBool globalSeqHost.direction.lnot }

/-- Method `HostGlobalSequence::setGreaterSeq`, statement by statement. The start is
computed in `uint_t` arithmetic, left to right. -/
def HostGlobalSequence.setGreaterSeq (self globalSeqHost : HostGlobalSequence)
    (globalSeqDev : DeviceGlobalSequence) : HostGlobalSequence :=
  let s1 := { self with
    start := wrapUint (wrapUint (globalSeqHost.oldStart + globalSeqHost.length)
      - globalSeqDev.offsetGreater) }
  let s2 := { s1 with length := globalSeqDev.offsetGreater }
  let s3 := { s2 with oldStart := s2.start }
  let s4 := { s3 with oldLength := s3.length }
  let s5 := { s4 with minVal := globalSeqDev.greaterSeqMinVal }
  let s6 := { s5 with maxVal := globalSeqHost.maxVal }
  { s6 with direction := TransferDirection.ofBool globalSeqHost.direction.lnot }

/-- Positions `i` of the range `[start, start + length)` of a host sequence. -/
def HostGlobalSequence.covers (s : HostGlobalSequence) (i : Nat) : Prop :=
  s.start ≤ i ∧ i < s.start + s.length

instance (s : HostGlobalSequence) (i : Nat) : Decidable (s.covers i) := by
  unfold HostGlobalSequence.covers; infer_instance

/-! ## `DeviceGlobalSequence` -/

/-- Method `DeviceGlobalSequence::setFromHostSeq`, statement by statement. The constants
`MIN_VAL` and `MAX_VAL` are not among the sources and are parameters. The sum
of the bounds is formed in `int`, and `/` on `int` truncates toward zero. -/
def DeviceGlobalSequence.setFromHostSeq (MIN_VAL MAX_VAL : Int)
    (self : DeviceGlobalSequence) (globalSeqHost : HostGlobalSequence)
    (startThreadBlock threadBlocksPerSequence : Nat) : DeviceGlobalSequence :=
  let s1 := { self with start := globalSeqHost.start }
  let s2 := { s1 with length := globalSeqHost.length }
  let s3 := { s2 with
    pivot := Int.tdiv (wrapInt (globalSeqHost.minVal + globalSeqHost.maxVal)) 2 }
  let s4 := { s3 with direction := globalSeqHost.direction }
  let s5 := { s4 with startThreadBlockIdx := startThreadBlock }
  let s6 := { s5 with threadBlockCounter := threadBlocksPerSequence }
  let s7 := { s6 with offsetLower := 0 }
  let s8 := { s7 with offsetGreater := 0 }
  let s9 := { s8 with greaterSeqMinVal := MAX_VAL }
  { s9 with lowerSeqMaxVal := MIN_VAL }

/-! ## `LocalSequence` -/

/-- Method `LocalSequence::setLowerSeq`, statement by statement. -/
def LocalSequence.setLowerSeq (self : LocalSequence) (globalSeqHost : HostGlobalSequence)
    (globalSeqDev : DeviceGlobalSequence) : LocalSequence :=
  let s1 := { self with start := globalSeqHost.oldStart }
  let s2 := { s1 with length := globalSeqDev.offsetLower }
  { s2 with direction := TransferDirection.ofBool globalSeqHost.direction.lnot }

/-- Method `LocalSequence::setGreaterSeq`, statement by statement. -/
def LocalSequence.setGreaterSeq (self : LocalSequence) (globalSeqHost : HostGlobalSequence)
    (globalSeqDev : DeviceGlobalSequence) : LocalSequence :=
  let s1 := { self with
    start := wrapUint (wrapUint (globalSeqHost.oldStart + globalSeqHost.length)
      - globalSeqDev.offsetGreater) }
  let s2 := { s1 with length := globalSeqDev.offsetGreater }
  { s2 with direction := TransferDirection.ofBool globalSeqHost.direction.lnot }

/-- Method `LocalSequence::setFromGlobalSeq`, statement by statement. -/
def LocalSequence.setFromGlobalSeq (self : LocalSequence) (globalParams : HostGlobalSequence) :
    LocalSequence :=
  let s1 := { self with start := globalParams.start }
  let s2 := { s1 with length := globalParams.length }
  { s2 with direction := globalParams.direction }

/-! ## Sample data -/

/-- A host sequence over positions `[100, 110)` of the second buffer. -/
def sampleHost : HostGlobalSequence :=
  { start := 100, length := 10, oldStart := 100, oldLength := 10,
    minVal := 5, maxVal := 90, direction := .BUFFER_TO_PRIMARY_MEM }

/-- A device result for `sampleHost`: three keys below the pivot, four above. -/
def sampleDev : DeviceGlobalSequence :=
  { start := 100, length := 10, pivot := 47, direction := .BUFFER_TO_PRIMARY_MEM,
    startThreadBlockIdx := 0, threadBlockCounter := 1,
    offsetLower := 3, offsetGreater := 4,
    greaterSeqMinVal := 50, lowerSeqMaxVal := 40 }

end Quicksort

/-! ## Host utilities (`Radix Sort/utils_host.cpp`) -/

open Quicksort (wrapUint)

/-- The key value pair `struct Element` of `data_types.h`; both fields are
`uint_t`. -/
structure Element where
  key : Nat
  val : Nat
  deriving DecidableEq, Repr, Inhabited

/-- The typedef `el_t`. -/
abbrev el_t := Element

/-- Why a run of a function of the source did not return: it read an array
outside its records, or it was still looping when the iteration budget ended. -/
inductive Fault where
  | outOfBounds (i : Nat)
  | outOfFuel
  deriving DecidableEq, Repr

deriving instance DecidableEq for Except

/-- One `printf` call of the host utilities, with the arguments it received:
the two messages of `compareArrays`, one cell `"%2d%s"` of `printTable`, and
the row end `"\n\n"`. -/
inductive Output where
  | arraysDifferent (i1 key1 i2 key2 : Nat)
  | arraysSame
  | cell (value : Nat) (separator : String)
  | rowEnd
  | newline
  deriving DecidableEq, Repr

/-- Key of record `i` of an array; `none` when the array has no record `i`. -/
def keyAt (a : List el_t) (i : Nat) : Option Nat := (a[i]?).map Element.key

/-- The loop of `compareArrays` from index `i` on, with at most `fuel` tests of
the loop condition. The counter `i` is an `uint_t`. -/
def compareLoop (array1 array2 : List el_t) (arrayLen : Nat) :
    Nat → Nat → Except Fault (List Output)
  | 0, _ => .error .outOfFuel
  | fuel + 1, i =>
    if i < arrayLen then
      match array1[i]?, array2[i]? with
      | some e1, some e2 =>
        if e1.key ≠ e2.key then
          .ok [.arraysDifferent i e1.key i e2.key]
        else
          compareLoop array1 array2 arrayLen fuel ((i + 1) % 4294967296)
      | _, _ => .error (.outOfBounds i)
    else
      .ok [.arraysSame]

/-- Function `compareArrays(array1, array2, arrayLen)`: the `printf` calls it
makes, with at most `fuel` tests of the loop condition. -/
def compareArrays (fuel : Nat) (array1 array2 : List el_t) (arrayLen : Nat) :
    Except Fault (List Output) :=
  compareLoop array1 array2 arrayLen fuel 0

/-- What a run of `printTable` did so far: the indices of the table it read
and the `printf` calls it made, both in order. -/
structure PrintTrace where
  reads : List Nat
  out : List Output
  deriving DecidableEq, Repr

/-- One row loop of `printTable`,
`for (uint_t i = startIndex; i <= endIndex; i++)`, from index `i` on, printing
`field` of each record, with at most `fuel` tests of the loop condition. -/
def printRow (field : el_t → Nat) (table : List el_t) (endIndex : Nat) :
    Nat → Nat → PrintTrace → Except Fault PrintTrace
  | 0, _, _ => .error .outOfFuel
  | fuel + 1, i, t =>
    if i ≤ endIndex then
      let separator := if i = endIndex then "" else ", "
      match table[i]? with
      | some e =>
        printRow field table endIndex fuel ((i + 1) % 4294967296)
          { reads := t.reads ++ [i], out := t.out ++ [.cell (field e) separator] }
      | none => .error (.outOfBounds i)
    else
      .ok t

/-- The overload `printTable(table, startIndex, endIndex)`: the keys row, then
the values row. -/
def printTableRange (fuel : Nat) (table : List el_t) (startIndex endIndex : Nat) :
    Except Fault PrintTrace :=
  match printRow Element.key table endIndex fuel startIndex { reads := [], out := [] } with
  | .error f => .error f
  | .ok t1 =>
    match printRow Element.val table endIndex fuel startIndex
        { t1 with out := t1.out ++ [.rowEnd] } with
    | .error f => .error f
    | .ok t2 => .ok { t2 with out := t2.out ++ [.rowEnd] }

/-- The overload `printTable(table, tableLen)`; `tableLen - 1` is computed in
`uint_t`. -/
def printTable (fuel : Nat) (table : List el_t) (tableLen : Nat) : Except Fault PrintTrace :=
  printTableRange fuel table 0 (wrapUint ((tableLen : Int) - 1))

/-! ## The driver and the sorters it calls (`Bitonic Sort/main.cpp`) -/

namespace BitonicSort

open Quicksort

/-- Modelled from the spec: `sortCorrect`, the reference sequential sorter, is
declared in `sort_sequential.h`, which is not among the sources. The spec
gives `sortCorrect(records) -> sortedRecords`, a test oracle; the model sorts
the first `tableLen` records by ascending key with a stable insertion sort. -/
def sortCorrect (input : List el_t) (tableLen : Nat) : List el_t :=
  (input.take tableLen).insertionSort (fun a b => a.key ≤ b.key)

/-- Modelled from the spec: the local sorting network
`sortInPlace(buffer, start, length, ascending)` is a collaborator of the
scheduler and not among the sources; the model sorts a retired sequence by key,
ascending or descending. -/
def sortInPlace (ascending : Bool) (seq : List el_t) : List el_t :=
  if ascending then seq.insertionSort (fun a b => a.key ≤ b.key)
  else seq.insertionSort (fun a b => b.key ≤ a.key)

/-- Greatest key of a table; `0` when the table is empty. -/
def maxKey : List el_t → Nat
  | [] => 0
  | e :: rest => max e.key (maxKey rest)

/-- Least key of a table; `0` when the table is empty. -/
def minKey : List el_t → Nat
  | [] => 0
  | [e] => e.key
  | e :: rest => min e.key (minKey rest)

/-- Ascending order of the keys of a table. -/
abbrev KeysAscending (seq : List el_t) : Prop :=
  List.Sorted (fun a b : el_t => a.key ≤ b.key) seq

instance : IsTotal el_t (fun a b : el_t => a.key ≤ b.key) :=
  ⟨fun a b => Nat.le_total a.key b.key⟩

instance : IsTrans el_t (fun a b : el_t => a.key ≤ b.key) :=
  ⟨fun _ _ _ hab hbc => Nat.le_trans hab hbc⟩

/-- Modelled from the spec: the constant `MIN_VAL` is not among the sources;
`setFromHostSeq` stores it as the start value of the measured `lowerSeqMaxVal`,
so it is taken as the least `data_t` value. -/
def MIN_VAL : Int := -2147483648

/-- Modelled from the spec: the constant `MAX_VAL` is not among the sources;
`setFromHostSeq` stores it as the start value of the measured
`greaterSeqMinVal`, so it is taken as the greatest `data_t` value. -/
def MAX_VAL : Int := 2147483647

/-- Modelled from the spec: the pass compares the key of a record with the
pivot, and the measured bounds are keys. `struct Element` holds the key as an
`uint_t`, the bounds and the pivot are `data_t`; the key is taken as the
`data_t` value of the same 32 bits, which is the key itself below `2^31`. -/
def keyValue (e : el_t) : Int := wrapInt e.key

/-- The records at positions `[start, start + length)` of a buffer. -/
def readRange (table : List el_t) (start length : Nat) : List el_t :=
  (table.drop start).take length

/-- The buffer after `data` is stored from position `start` on. -/
def writeRange (table : List el_t) (start : Nat) (data : List el_t) : List el_t :=
  table.take start ++ data ++ table.drop (start + data.length)

/-- Modelled from the spec: the buffer pair of the record and buffer model,
named as in the comment of `data_types.h`
(`false: dataInput -> dataBuffer, true: dataBuffer -> dataInput`), and the
table that receives the consolidated result. -/
structure Buffers where
  dataInput : List el_t
  dataBuffer : List el_t
  dataOutput : List el_t
  deriving DecidableEq, Repr

/-- The buffer that holds the live data of a sequence with this direction. -/
def Buffers.source (b : Buffers) : TransferDirection → List el_t
  | .PRIMARY_MEM_TO_BUFFER => b.dataInput
  | .BUFFER_TO_PRIMARY_MEM => b.dataBuffer

/-- The scratch buffer of a sequence with this direction. -/
def Buffers.target (b : Buffers) : TransferDirection → List el_t
  | .PRIMARY_MEM_TO_BUFFER => b.dataBuffer
  | .BUFFER_TO_PRIMARY_MEM => b.dataInput

/-- The buffers after `data` is stored from `start` on in the scratch buffer
of a sequence with this direction. -/
def Buffers.scatter (b : Buffers) (direction : TransferDirection) (start : Nat)
    (data : List el_t) : Buffers :=
  match direction with
  | .PRIMARY_MEM_TO_BUFFER => { b with dataBuffer := writeRange b.dataBuffer start data }
  | .BUFFER_TO_PRIMARY_MEM => { b with dataInput := writeRange b.dataInput start data }

/-- A descriptor with every field zero, the receiver of a setter. -/
def newHostSeq : HostGlobalSequence :=
  { start := 0, length := 0, oldStart := 0, oldLength := 0, minVal := 0, maxVal := 0,
    direction := .PRIMARY_MEM_TO_BUFFER }

/-- A descriptor with every field zero, the receiver of `setFromHostSeq`. -/
def newDevSeq : DeviceGlobalSequence :=
  { start := 0, length := 0, pivot := 0, direction := .PRIMARY_MEM_TO_BUFFER,
    startThreadBlockIdx := 0, threadBlockCounter := 0, offsetLower := 0, offsetGreater := 0,
    greaterSeqMinVal := 0, lowerSeqMaxVal := 0 }

/-- The records of a live range whose key is below the pivot, in their order. -/
def lowerClass (pivot : Int) (live : List el_t) : List el_t :=
  live.filter (fun e => keyValue e < pivot)

/-- The records of a live range whose key is the pivot, in their order. -/
def equalClass (pivot : Int) (live : List el_t) : List el_t :=
  live.filter (fun e => keyValue e = pivot)

/-- The records of a live range whose key is above the pivot, in their order. -/
def greaterClass (pivot : Int) (live : List el_t) : List el_t :=
  live.filter (fun e => pivot < keyValue e)

/-- Modelled from the spec: the partition pass (spec 4.1) is not among the
sources. It reads the live range of the device sequence, classifies every
record against the pivot, stores the records below the pivot at the start of
the scratch range, those equal to it right after them and those above it after
that, adds the two counts to `offsetLower` and `offsetGreater`, and folds the
keys of the two outer classes into `lowerSeqMaxVal` and `greaterSeqMinVal`. -/
def partitionPass (b : Buffers) (d : DeviceGlobalSequence) : Buffers × DeviceGlobalSequence :=
  let live := readRange (b.source d.direction) d.start d.length
  let lower := lowerClass d.pivot live
  let equal := equalClass d.pivot live
  let greater := greaterClass d.pivot live
  (b.scatter d.direction d.start (lower ++ equal ++ greater),
   { d with
     offsetLower := d.offsetLower + lower.length
     offsetGreater := d.offsetGreater + greater.length
     lowerSeqMaxVal := lower.foldl (fun m e => max m (keyValue e)) d.lowerSeqMaxVal
     greaterSeqMinVal := greater.foldl (fun m e => min m (keyValue e)) d.greaterSeqMinVal })

/-- The records in the live range of a host sequence. -/
def liveRecords (h : HostGlobalSequence) (b : Buffers) : List el_t :=
  readRange (b.source h.direction) h.start h.length

/-- The pivot of the round on a host sequence, as `setFromHostSeq` computes it. -/
def roundPivot (h : HostGlobalSequence) : Int :=
  (DeviceGlobalSequence.setFromHostSeq MIN_VAL MAX_VAL newDevSeq h 0 1).pivot

/-- Modelled from the spec: one round of the scheduler on one sequence (spec
4.2, `ASSIGNING` to `RETIRING`) is not among the sources; the descriptors it
works with are built by the setters of `data_types.cpp`. The device descriptor,
with its pivot, comes from `setFromHostSeq` (the worker groups assigned to a
sequence do not change what the pass computes, one group is assigned), the
partition pass runs, the children are built by `setLowerSeq` and
`setGreaterSeq` from the harvested device descriptor, and the equal run that
lies between the two children in the scratch buffer is copied into the result.
The round yields the lower child, the greater child and the buffers. -/
def partitionRound (h : HostGlobalSequence) (b : Buffers) :
    HostGlobalSequence × HostGlobalSequence × Buffers :=
  let d := DeviceGlobalSequence.setFromHostSeq MIN_VAL MAX_VAL newDevSeq h 0 1
  let pass := partitionPass b d
  let lowerSeq := newHostSeq.setLowerSeq h pass.2
  let greaterSeq := newHostSeq.setGreaterSeq h pass.2
  let equalRun := readRange (pass.1.target h.direction) (lowerSeq.start + lowerSeq.length)
    (greaterSeq.start - (lowerSeq.start + lowerSeq.length))
  (lowerSeq, greaterSeq,
    { pass.1 with
      dataOutput := writeRange pass.1.dataOutput (lowerSeq.start + lowerSeq.length) equalRun })

/-- Modelled from the spec: the scheduler (spec 4.2) is not among the sources.
A sequence of at most `threshold` records is retired: its live range is
sorted by the local sort into the result. A sequence with `minVal == maxVal`
is retired as it is. Otherwise one round runs on the sequence and the two
children are scheduled in turn, an empty child being discarded. The rounds of
the registry are rendered as recursion on the children, whose ranges are
disjoint, and every range is copied into the result when it becomes final;
`fuel` bounds the number of rounds, and `none` means that sequences were still
active when it ended. -/
def runSequence (threshold : Nat) : Nat → HostGlobalSequence → Buffers → Option Buffers
  | 0, _, _ => none
  | fuel + 1, h, b =>
    if h.length ≤ threshold then
      some { b with
        dataOutput := writeRange b.dataOutput h.start (sortInPlace true (liveRecords h b)) }
    else if h.minVal = h.maxVal then
      some { b with dataOutput := writeRange b.dataOutput h.start (liveRecords h b) }
    else
      let round := partitionRound h b
      match (if round.1.length = 0 then some round.2.2
          else runSequence threshold fuel round.1 round.2.2) with
      | none => none
      | some b2 =>
        if round.2.1.length = 0 then some b2 else runSequence threshold fuel round.2.1 b2

/-- Agreement of two buffers of the same length outside the range
`[start, start + length)`. -/
def AgreeOutside (a b : List el_t) (start length : Nat) : Prop :=
  a.length = b.length ∧ ∀ i, (i < start ∨ start + length ≤ i) → a[i]? = b[i]?

/-- The state in which the scheduler meets a sequence when the sum of its
bounds does not overflow: the three buffers have `n` records, `n` an `uint_t`
value; the sequence lies within them and is its own old range; and the keys of
its live records lie within its bounds, which lie between 0 and `2^30 - 1`. -/
structure Ready (h : HostGlobalSequence) (b : Buffers) (n : Nat) : Prop where
  size : n < 4294967296
  old : h.oldStart = h.start
  fit : h.start + h.length ≤ n
  input : b.dataInput.length = n
  buffer : b.dataBuffer.length = n
  output : b.dataOutput.length = n
  low : 0 ≤ h.minVal
  high : h.maxVal < 1073741824
  keys : ∀ e ∈ liveRecords h b, h.minVal ≤ (e.key : Int) ∧ (e.key : Int) ≤ h.maxVal

/-- Agreement of all three buffers outside the range `[start, start + length)`. -/
def Frame (after before : Buffers) (start length : Nat) : Prop :=
  AgreeOutside after.dataInput before.dataInput start length ∧
  AgreeOutside after.dataBuffer before.dataBuffer start length ∧
  AgreeOutside after.dataOutput before.dataOutput start length

/-- What the scheduler owes for a sequence: it returns, it changed the buffers
only within the range of the sequence, and the range of the result table holds
the live records in ascending key order. -/
def Settled (h : HostGlobalSequence) (b : Buffers)
    (run : Option Buffers) : Prop :=
  ∃ (after : Buffers) (res : List el_t),
    run = some after ∧ Frame after b h.start h.length ∧
    res.Perm (liveRecords h b) ∧ KeysAscending res ∧
    readRange after.dataOutput h.start h.length = res

/-- Modelled from the spec: `sortParallel` is declared in `sort_parallel.h`,
which is not among the sources. The spec gives
`sortParallel(input, length, ascending) -> sequence of Record`: the first
`tableLen` records are copied into the first buffer, the scheduler is seeded by
`setInitSeq` with one sequence spanning them, whose bounds are the least and
the greatest key as `data_t` values, and runs until no sequence is left; for
descending order the consolidated result is read back to front. `threshold` is
the configuration value `localSortThreshold`; `none` means that the scheduler
was still running after `fuel` rounds. -/
def sortParallel (threshold fuel : Nat) (input : List el_t) (tableLen : Nat) (orderAsc : Bool) :
    Option (List el_t) :=
  let table := input.take tableLen
  let seed := newHostSeq.setInitSeq tableLen (wrapInt (minKey table)) (wrapInt (maxKey table))
  match runSequence threshold fuel seed
      { dataInput := table, dataBuffer := List.replicate tableLen default,
        dataOutput := List.replicate tableLen default } with
  | none => none
  | some b => some (if orderAsc then b.dataOutput else b.dataOutput.reverse)

/-- The table `el_t input[8]` of `main`. -/
def input : List el_t :=
  [⟨2, 0⟩, ⟨22, 1⟩, ⟨24, 2⟩, ⟨92, 3⟩, ⟨46, 4⟩, ⟨29, 5⟩, ⟨78, 6⟩, ⟨12, 7⟩]

/-- The driver `main`: the `printf` calls made by `printTable(input, tableLen)`,
`printTable(outputParallel, tableLen)`, `printf("\n")` and
`compareArrays(outputParallel, outputCorrect, tableLen)`, in this order. The
calls that set up the device and wait for a key press are left out. -/
def main (threshold fuel : Nat) : Except Fault (List Output) :=
  let tableLen := 1 <<< 3
  let orderAsc := true
  match printTable fuel input tableLen with
  | .error f => .error f
  | .ok shown =>
    match sortParallel threshold fuel input tableLen orderAsc with
    | none => .error .outOfFuel
    | some outputParallel =>
      match printTable fuel outputParallel tableLen with
      | .error f => .error f
      | .ok sorted =>
        let outputCorrect := sortCorrect input tableLen
        match compareArrays fuel outputParallel outputCorrect tableLen with
        | .error f => .error f
        | .ok verdict => .ok (shown.out ++ sorted.out ++ [.newline] ++ verdict)

end BitonicSort

namespace Quicksort

/-! ## Properties of the sequence setters -/

theorem wrapUint_of_lt (n : Nat) (h : n < 4294967296) : wrapUint (n : Int) = n := by
  unfold wrapUint
  omega

theorem greater_start_exact (a b c : Nat) (hc : c ≤ a + b) (h : a + b < 4294967296) :
    wrapUint ((wrapUint ((a : Int) + (b : Int)) : Int) - (c : Int)) = a + b - c := by
  unfold wrapUint
  omega

/-- C1: when the two offsets fit into the parent (and the parent's end is a
32 bit value), the lower child is `[oldStart, oldStart + offsetLower)`, the
greater child is `[oldStart + length - offsetGreater, oldStart + length)`; the
lower child ends before the greater one begins, both stay inside
`[oldStart, oldStart + length)`, the gap between them has
`length - offsetLower - offsetGreater` positions, and every position of the
parent range is in exactly one of lower child, gap, greater child. -/
theorem children_tile_parent (s t p : HostGlobalSequence) (d : DeviceGlobalSequence)
    (hoff : d.offsetLower + d.offsetGreater ≤ p.length)
    (hrep : p.oldStart + p.length < 4294967296) :
    (s.setLowerSeq p d).start = p.oldStart ∧
    (s.setLowerSeq p d).start + (s.setLowerSeq p d).length = p.oldStart + d.offsetLower ∧
    (t.setGreaterSeq p d).start = p.oldStart + p.length - d.offsetGreater ∧
    (t.setGreaterSeq p d).start + (t.setGreaterSeq p d).length = p.oldStart + p.length ∧
    (s.setLowerSeq p d).start + (s.setLowerSeq p d).length ≤ (t.setGreaterSeq p d).start ∧
    p.oldStart ≤ (s.setLowerSeq p d).start ∧
    (t.setGreaterSeq p d).start + (t.setGreaterSeq p d).length ≤ p.oldStart + p.length ∧
    (t.setGreaterSeq p d).start - ((s.setLowerSeq p d).start + (s.setLowerSeq p d).length)
      = p.length - d.offsetLower - d.offsetGreater ∧
    (∀ i, ¬ ((s.setLowerSeq p d).covers i ∧ (t.setGreaterSeq p d).covers i)) ∧
    (∀ i, p.oldStart ≤ i → i < p.oldStart + p.length →
      ((s.setLowerSeq p d).covers i ∨ (t.setGreaterSeq p d).covers i ↔
        ¬ (p.oldStart + d.offsetLower ≤ i ∧ i < p.oldStart + p.length - d.offsetGreater))) ∧
    (∀ i, (s.setLowerSeq p d).covers i ∨ (t.setGreaterSeq p d).covers i →
      p.oldStart ≤ i ∧ i < p.oldStart + p.length) := by
  have hg : (t.setGreaterSeq p d).start = p.oldStart + p.length - d.offsetGreater := by
    simp only [HostGlobalSequence.setGreaterSeq]
    exact greater_start_exact _ _ _ (by omega) hrep
  have hgl : (t.setGreaterSeq p d).length = d.offsetGreater := rfl
  have hl : (s.setLowerSeq p d).start = p.oldStart := rfl
  have hll : (s.setLowerSeq p d).length = d.offsetLower := rfl
  simp only [HostGlobalSequence.covers, hg, hgl, hl, hll]
  refine ⟨trivial, trivial, trivial, ?_, ?_, ?_, ?_, ?_, ?_, ?_, ?_⟩ <;> intros <;> omega

/-- Witness of C1 on `sampleHost` (positions 100 to 109) and `sampleDev`
(offsets 3 and 4): the children are `[100, 103)` and `[106, 110)`, with the
three positions 103, 104, 105 between them. -/
theorem children_tile_parent_witness :
    (sampleDev.offsetLower + sampleDev.offsetGreater ≤ sampleHost.length ∧
      sampleHost.oldStart + sampleHost.length < 4294967296) ∧
    (sampleHost.setLowerSeq sampleHost sampleDev).start = 100 ∧
    (sampleHost.setLowerSeq sampleHost sampleDev).start
      + (sampleHost.setLowerSeq sampleHost sampleDev).length = 100 + 3 ∧
    (sampleHost.setGreaterSeq sampleHost sampleDev).start = 100 + 10 - 4 ∧
    (sampleHost.setGreaterSeq sampleHost sampleDev).start
      - ((sampleHost.setLowerSeq sampleHost sampleDev).start
        + (sampleHost.setLowerSeq sampleHost sampleDev).length) = 10 - 3 - 4 :=
  have h := children_tile_parent sampleHost sampleHost sampleHost sampleDev
    (by decide) (by decide)
  ⟨by decide, h.1, h.2.1, h.2.2.1, h.2.2.2.2.2.2.2.1⟩

/-- C2: every child built by one of the four child setters has the direction
that is the logical complement of the parent's: it differs from the parent's,
and it is `ofBool` of `!` of the parent's. A grandchild built by any of the
setters has the direction of its grandparent. -/
theorem child_direction_complement (s t : HostGlobalSequence) (l m : LocalSequence)
    (p : HostGlobalSequence) (d e : DeviceGlobalSequence) :
    ((s.setLowerSeq p d).direction = TransferDirection.ofBool p.direction.lnot ∧
     (s.setGreaterSeq p d).direction = TransferDirection.ofBool p.direction.lnot ∧
     (l.setLowerSeq p d).direction = TransferDirection.ofBool p.direction.lnot ∧
     (l.setGreaterSeq p d).direction = TransferDirection.ofBool p.direction.lnot) ∧
    ((s.setLowerSeq p d).direction ≠ p.direction ∧
     (s.setGreaterSeq p d).direction ≠ p.direction ∧
     (l.setLowerSeq p d).direction ≠ p.direction ∧
     (l.setGreaterSeq p d).direction ≠ p.direction) ∧
    ((t.setLowerSeq (s.setLowerSeq p d) e).direction = p.direction ∧
     (t.setLowerSeq (s.setGreaterSeq p d) e).direction = p.direction ∧
     (t.setGreaterSeq (s.setLowerSeq p d) e).direction = p.direction ∧
     (t.setGreaterSeq (s.setGreaterSeq p d) e).direction = p.direction ∧
     (m.setLowerSeq (s.setLowerSeq p d) e).direction = p.direction ∧
     (m.setLowerSeq (s.setGreaterSeq p d) e).direction = p.direction ∧
     (m.setGreaterSeq (s.setLowerSeq p d) e).direction = p.direction ∧
     (m.setGreaterSeq (s.setGreaterSeq p d) e).direction = p.direction) := by
  simp only [HostGlobalSequence.setLowerSeq, HostGlobalSequence.setGreaterSeq,
    LocalSequence.setLowerSeq, LocalSequence.setGreaterSeq]
  cases p.direction <;> decide

/-- No overflow: when the exact sum of the bounds is an `int` value and
`minVal ≤ maxVal`, the pivot of `setFromHostSeq` lies between the bounds. -/
theorem pivot_between_bounds_of_no_overflow (lo hi : Int) (self : DeviceGlobalSequence)
    (h : HostGlobalSequence) (b c : Nat) (hle : h.minVal ≤ h.maxVal)
    (hmin : -2147483648 ≤ h.minVal + h.maxVal) (hmax : h.minVal + h.maxVal ≤ 2147483647) :
    h.minVal ≤ (DeviceGlobalSequence.setFromHostSeq lo hi self h b c).pivot ∧
    (DeviceGlobalSequence.setFromHostSeq lo hi self h b c).pivot ≤ h.maxVal := by
  simp only [DeviceGlobalSequence.setFromHostSeq, wrapInt]
  have hw : (h.minVal + h.maxVal + 2147483648) % 4294967296 - 2147483648
      = h.minVal + h.maxVal := by omega
  rw [hw]
  rcases Int.le_total 0 (h.minVal + h.maxVal) with hs | hs
  · rw [Int.tdiv_eq_ediv hs (by decide)]
    omega
  · have hn : h.minVal + h.maxVal = -(-(h.minVal + h.maxVal)) := by omega
    rw [hn, Int.neg_tdiv, Int.tdiv_eq_ediv (by omega) (by decide)]
    omega

/-- C3, at the failing input: for the bounds `minVal = maxVal = 2^30`, both
`int` values, the sum formed in `int` wraps to `-2^31`, and `setFromHostSeq`
sets the pivot to `-2^30`, which is not `minVal` and lies below `minVal`. -/
theorem pivot_overflow_at_equal_bounds :
    (DeviceGlobalSequence.setFromHostSeq (-2147483648) 2147483647 sampleDev
      { sampleHost with minVal := 1073741824, maxVal := 1073741824 } 0 1).pivot
      = -1073741824 ∧
    (DeviceGlobalSequence.setFromHostSeq (-2147483648) 2147483647 sampleDev
      { sampleHost with minVal := 1073741824, maxVal := 1073741824 } 0 1).pivot
      < ({ sampleHost with minVal := 1073741824, maxVal := 1073741824 } :
          HostGlobalSequence).minVal := by
  decide

/-- C4: the lower child keeps the parent's `minVal` and takes `lowerSeqMaxVal`
as `maxVal`; the greater child takes `greaterSeqMinVal` as `minVal` and keeps
the parent's `maxVal`; when the two measured values lie within the parent's
bounds, each child's bounds lie within the parent's. -/
theorem child_bounds_within_parent (s t p : HostGlobalSequence) (d : DeviceGlobalSequence) :
    (s.setLowerSeq p d).minVal = p.minVal ∧
    (s.setLowerSeq p d).maxVal = d.lowerSeqMaxVal ∧
    (t.setGreaterSeq p d).minVal = d.greaterSeqMinVal ∧
    (t.setGreaterSeq p d).maxVal = p.maxVal ∧
    (p.minVal ≤ d.lowerSeqMaxVal → d.lowerSeqMaxVal ≤ p.maxVal →
      p.minVal ≤ d.greaterSeqMinVal → d.greaterSeqMinVal ≤ p.maxVal →
      (p.minVal ≤ (s.setLowerSeq p d).minVal ∧
       (s.setLowerSeq p d).minVal ≤ (s.setLowerSeq p d).maxVal ∧
       (s.setLowerSeq p d).maxVal ≤ p.maxVal) ∧
      (p.minVal ≤ (t.setGreaterSeq p d).minVal ∧
       (t.setGreaterSeq p d).minVal ≤ (t.setGreaterSeq p d).maxVal ∧
       (t.setGreaterSeq p d).maxVal ≤ p.maxVal)) := by
  refine ⟨rfl, rfl, rfl, rfl, ?_⟩
  intro h1 h2 h3 h4
  simp only [HostGlobalSequence.setLowerSeq, HostGlobalSequence.setGreaterSeq]
  omega

/-- Witness of C4 on `sampleHost` and `sampleDev`: the measured values 40 and
50 lie within the parent's bounds `[5, 90]`, and so do the bounds `[5, 40]` and
`[50, 90]` of the children. -/
theorem child_bounds_within_parent_witness :
    (sampleHost.minVal ≤ sampleDev.lowerSeqMaxVal ∧
      sampleDev.lowerSeqMaxVal ≤ sampleHost.maxVal ∧
      sampleHost.minVal ≤ sampleDev.greaterSeqMinVal ∧
      sampleDev.greaterSeqMinVal ≤ sampleHost.maxVal) ∧
    (sampleHost.minVal ≤ (sampleHost.setLowerSeq sampleHost sampleDev).minVal ∧
     (sampleHost.setLowerSeq sampleHost sampleDev).minVal
       ≤ (sampleHost.setLowerSeq sampleHost sampleDev).maxVal ∧
     (sampleHost.setLowerSeq sampleHost sampleDev).maxVal ≤ sampleHost.maxVal) ∧
    (sampleHost.minVal ≤ (sampleHost.setGreaterSeq sampleHost sampleDev).minVal ∧
     (sampleHost.setGreaterSeq sampleHost sampleDev).minVal
       ≤ (sampleHost.setGreaterSeq sampleHost sampleDev).maxVal ∧
     (sampleHost.setGreaterSeq sampleHost sampleDev).maxVal ≤ sampleHost.maxVal) :=
  ⟨by decide,
    (child_bounds_within_parent sampleHost sampleHost sampleHost sampleDev).2.2.2.2
      (by decide) (by decide) (by decide) (by decide)⟩

/-- C5 fails as stated: on `sampleHost` (range start 100, length 10) and
`sampleDev`, the lower child has `oldLength = 3` and the greater child has
`oldStart = 106` and `oldLength = 4`, none of them the parent's start 100 or
length 10. -/
theorem child_old_range_is_not_parent_range :
    sampleHost.start = 100 ∧ sampleHost.length = 10 ∧
    (sampleHost.setLowerSeq sampleHost sampleDev).oldLength = 3 ∧
    (sampleHost.setGreaterSeq sampleHost sampleDev).oldStart = 106 ∧
    (sampleHost.setGreaterSeq sampleHost sampleDev).oldLength = 4 ∧
    ¬ ((sampleHost.setLowerSeq sampleHost sampleDev).oldStart = sampleHost.start ∧
       (sampleHost.setLowerSeq sampleHost sampleDev).oldLength = sampleHost.length) ∧
    ¬ ((sampleHost.setGreaterSeq sampleHost sampleDev).oldStart = sampleHost.start ∧
       (sampleHost.setGreaterSeq sampleHost sampleDev).oldLength = sampleHost.length) := by
  decide

/-- C5, amended: the `oldStart` and `oldLength` of a child built by
`setLowerSeq` or `setGreaterSeq` are copies of the child's own `start` and
`length`; for the lower child these are the parent's `oldStart` and the
device's `offsetLower`, for the greater child the `uint_t` value of
`oldStart + length - offsetGreater` and the device's `offsetGreater`. -/
theorem child_old_range_is_own_range (s t p : HostGlobalSequence) (d : DeviceGlobalSequence) :
    (s.setLowerSeq p d).oldStart = (s.setLowerSeq p d).start ∧
    (s.setLowerSeq p d).oldLength = (s.setLowerSeq p d).length ∧
    (s.setLowerSeq p d).oldStart = p.oldStart ∧
    (s.setLowerSeq p d).oldLength = d.offsetLower ∧
    (t.setGreaterSeq p d).oldStart = (t.setGreaterSeq p d).start ∧
    (t.setGreaterSeq p d).oldLength = (t.setGreaterSeq p d).length ∧
    (t.setGreaterSeq p d).oldStart
      = wrapUint (wrapUint (p.oldStart + p.length) - d.offsetGreater) ∧
    (t.setGreaterSeq p d).oldLength = d.offsetGreater :=
  ⟨rfl, rfl, rfl, rfl, rfl, rfl, rfl, rfl⟩

/-- C6: `setInitSeq` yields the seed sequence over the whole input, whatever
the receiver held before. -/
theorem setInitSeq_seed (s : HostGlobalSequence) (tableLen : Nat) (initMinVal initMaxVal : Int) :
    s.setInitSeq tableLen initMinVal initMaxVal =
      { start := 0, length := tableLen, oldStart := 0, oldLength := tableLen,
        minVal := initMinVal, maxVal := initMaxVal,
        direction := TransferDirection.PRIMARY_MEM_TO_BUFFER } :=
  rfl

/-- C7: the local child setters yield the very descriptor obtained by building
the global child and copying it with `setFromGlobalSeq`, whatever the
receivers held before. -/
theorem local_child_from_global_child (l m : LocalSequence) (s p : HostGlobalSequence)
    (d : DeviceGlobalSequence) :
    l.setLowerSeq p d = m.setFromGlobalSeq (s.setLowerSeq p d) ∧
    l.setGreaterSeq p d = m.setFromGlobalSeq (s.setGreaterSeq p d) :=
  ⟨rfl, rfl⟩

end Quicksort

/-! ## Properties of `compareArrays` -/

theorem keyAt_eq_some_of_lt (a : List el_t) (i : Nat) (h : i < a.length) :
    ∃ e, a[i]? = some e ∧ keyAt a i = some e.key := by
  refine ⟨a[i], List.getElem?_eq_getElem h, ?_⟩
  simp [keyAt, List.getElem?_eq_getElem h]

/-- When the keys agree from `i` up to `arrayLen`, the loop reports equality. -/
theorem compareLoop_same (array1 array2 : List el_t) (arrayLen : Nat)
    (h1 : arrayLen ≤ array1.length) (h2 : arrayLen ≤ array2.length)
    (h32 : arrayLen < 4294967296) :
    ∀ (fuel i : Nat), arrayLen - i < fuel →
      (∀ j, i ≤ j → j < arrayLen → keyAt array1 j = keyAt array2 j) →
      compareLoop array1 array2 arrayLen fuel i = .ok [.arraysSame] := by
  intro fuel
  induction fuel with
  | zero => intro i hf; omega
  | succ fuel ih =>
    intro i hf hk
    unfold compareLoop
    by_cases hi : i < arrayLen
    · obtain ⟨e1, he1, hk1⟩ := keyAt_eq_some_of_lt array1 i (by omega)
      obtain ⟨e2, he2, hk2⟩ := keyAt_eq_some_of_lt array2 i (by omega)
      have hkey : e1.key = e2.key := by
        have := hk i (Nat.le_refl i) hi
        rw [hk1, hk2] at this
        exact Option.some.inj this
      have hwrap : (i + 1) % 4294967296 = i + 1 := Nat.mod_eq_of_lt (by omega)
      simp only [if_pos hi, he1, he2, hwrap, hkey, ne_eq, not_true_eq_false, if_false]
      exact ih (i + 1) (by omega) (fun j hj hjl => hk j (by omega) hjl)
    · simp only [if_neg hi]

/-- When the keys agree from `i` up to `j` and differ at `j`, the loop reports
the difference at `j`. -/
theorem compareLoop_different (array1 array2 : List el_t) (arrayLen j : Nat)
    (h1 : arrayLen ≤ array1.length) (h2 : arrayLen ≤ array2.length)
    (h32 : arrayLen < 4294967296) (hj : j < arrayLen) (e1 e2 : el_t)
    (he1 : array1[j]? = some e1) (he2 : array2[j]? = some e2) (hne : e1.key ≠ e2.key) :
    ∀ (fuel i : Nat), i ≤ j → j - i < fuel →
      (∀ m, i ≤ m → m < j → keyAt array1 m = keyAt array2 m) →
      compareLoop array1 array2 arrayLen fuel i
        = .ok [.arraysDifferent j e1.key j e2.key] := by
  intro fuel
  induction fuel with
  | zero => intro i _ hf; omega
  | succ fuel ih =>
    intro i hij hf hk
    unfold compareLoop
    have hi : i < arrayLen := by omega
    by_cases hlt : i < j
    · obtain ⟨f1, hf1, hk1⟩ := keyAt_eq_some_of_lt array1 i (by omega)
      obtain ⟨f2, hf2, hk2⟩ := keyAt_eq_some_of_lt array2 i (by omega)
      have hkey : f1.key = f2.key := by
        have := hk i (Nat.le_refl i) hlt
        rw [hk1, hk2] at this
        exact Option.some.inj this
      have hwrap : (i + 1) % 4294967296 = i + 1 := Nat.mod_eq_of_lt (by omega)
      simp only [if_pos hi, hf1, hf2, hwrap, hkey, ne_eq, not_true_eq_false, if_false]
      exact ih (i + 1) (by omega) (by omega) (fun m hm hmj => hk m (by omega) hmj)
    · have hij2 : i = j := by omega
      subst hij2
      simp only [if_pos hi, he1, he2, ne_eq, hne, not_false_eq_true, if_true]

/-- The loop looks at keys only: arrays with the same keys give the same run. -/
theorem compareLoop_keys_only (array1 array2 other1 other2 : List el_t) (arrayLen : Nat)
    (hk1 : other1.map Element.key = array1.map Element.key)
    (hk2 : other2.map Element.key = array2.map Element.key) :
    ∀ (fuel i : Nat), compareLoop other1 other2 arrayLen fuel i
      = compareLoop array1 array2 arrayLen fuel i := by
  have key1 : ∀ i, keyAt other1 i = keyAt array1 i := by
    intro i
    have := congrArg (fun l => l[i]?) hk1
    simpa [keyAt, List.getElem?_map] using this
  have key2 : ∀ i, keyAt other2 i = keyAt array2 i := by
    intro i
    have := congrArg (fun l => l[i]?) hk2
    simpa [keyAt, List.getElem?_map] using this
  intro fuel
  induction fuel with
  | zero => intro i; rfl
  | succ fuel ih =>
    intro i
    unfold compareLoop
    have k1 := key1 i
    have k2 := key2 i
    unfold keyAt at k1 k2
    by_cases hi : i < arrayLen
    · simp only [if_pos hi]
      cases ha : array1[i]? <;> cases hb : array2[i]? <;>
        cases hc : other1[i]? <;> cases hd : other2[i]? <;>
        simp_all [ih]
    · simp only [if_neg hi]

/-- A property of indices that fails below `n` has a first index where it fails. -/
theorem exists_first_failure (P : Nat → Prop) (n : Nat) (h : ¬ ∀ i, i < n → P i) :
    ∃ i, i < n ∧ ¬ P i ∧ ∀ j, j < i → P j := by
  classical
  have hex : ∃ i, i < n ∧ ¬ P i := by
    by_contra hno
    exact h (fun i hi => by
      by_contra hp
      exact hno ⟨i, hi, hp⟩)
  refine ⟨Nat.find hex, (Nat.find_spec hex).1, (Nat.find_spec hex).2, ?_⟩
  intro j hj
  by_contra hp
  exact Nat.find_min hex hj ⟨Nat.lt_trans hj (Nat.find_spec hex).1, hp⟩

/-- The run of `compareArrays` on arrays whose keys differ somewhere below
`arrayLen`: one report, at the first such index. -/
theorem compareArrays_of_difference (fuel : Nat) (array1 array2 : List el_t) (arrayLen : Nat)
    (h1 : arrayLen ≤ array1.length) (h2 : arrayLen ≤ array2.length)
    (h32 : arrayLen < 4294967296) (hfuel : arrayLen < fuel)
    (hdiff : ¬ ∀ i, i < arrayLen → keyAt array1 i = keyAt array2 i) :
    ∃ i k1 k2, i < arrayLen ∧ keyAt array1 i = some k1 ∧ keyAt array2 i = some k2 ∧
      k1 ≠ k2 ∧ (∀ j, j < i → keyAt array1 j = keyAt array2 j) ∧
      compareArrays fuel array1 array2 arrayLen = .ok [.arraysDifferent i k1 i k2] := by
  obtain ⟨i, hi, hne, hbelow⟩ := exists_first_failure _ arrayLen hdiff
  obtain ⟨e1, he1, hk1⟩ := keyAt_eq_some_of_lt array1 i (by omega)
  obtain ⟨e2, he2, hk2⟩ := keyAt_eq_some_of_lt array2 i (by omega)
  have hkne : e1.key ≠ e2.key := by
    intro heq
    exact hne (by rw [hk1, hk2, heq])
  refine ⟨i, e1.key, e2.key, hi, hk1, hk2, hkne, hbelow, ?_⟩
  exact compareLoop_different array1 array2 arrayLen i h1 h2 h32 hi e1 e2 he1 he2 hkne
    fuel 0 (Nat.zero_le i) (by omega) (fun m _ hm => hbelow m hm)

/-- C9: on arrays with at least `arrayLen` records (`arrayLen` an `uint_t`
value, and an iteration budget above `arrayLen`), `compareArrays` reports
"Arrays are the same" exactly when the keys agree at every index below
`arrayLen`; otherwise its whole output is one report of a difference, at the
first index where the keys differ; and arrays with the same keys, whatever
their `val` fields, give the same output. -/
theorem compareArrays_reports_first_difference (fuel : Nat) (array1 array2 : List el_t)
    (arrayLen : Nat) (h1 : arrayLen ≤ array1.length) (h2 : arrayLen ≤ array2.length)
    (h32 : arrayLen < 4294967296) (hfuel : arrayLen < fuel) :
    (compareArrays fuel array1 array2 arrayLen = .ok [.arraysSame] ↔
      ∀ i, i < arrayLen → keyAt array1 i = keyAt array2 i) ∧
    ((¬ ∀ i, i < arrayLen → keyAt array1 i = keyAt array2 i) →
      ∃ i k1 k2, i < arrayLen ∧ keyAt array1 i = some k1 ∧ keyAt array2 i = some k2 ∧
        k1 ≠ k2 ∧ (∀ j, j < i → keyAt array1 j = keyAt array2 j) ∧
        compareArrays fuel array1 array2 arrayLen = .ok [.arraysDifferent i k1 i k2]) ∧
    (∀ other1 other2 : List el_t,
      other1.map Element.key = array1.map Element.key →
      other2.map Element.key = array2.map Element.key →
      compareArrays fuel other1 other2 arrayLen = compareArrays fuel array1 array2 arrayLen) := by
  refine ⟨⟨?_, ?_⟩, compareArrays_of_difference fuel array1 array2 arrayLen h1 h2 h32 hfuel, ?_⟩
  · intro hsame
    by_contra hdiff
    obtain ⟨i, k1, k2, _, _, _, _, _, hrun⟩ :=
      compareArrays_of_difference fuel array1 array2 arrayLen h1 h2 h32 hfuel hdiff
    rw [hrun] at hsame
    simp at hsame
  · intro hall
    exact compareLoop_same array1 array2 arrayLen h1 h2 h32 fuel 0 (by omega)
      (fun j _ hj => hall j hj)
  · intro other1 other2 hk1 hk2
    exact compareLoop_keys_only array1 array2 other1 other2 arrayLen hk1 hk2 fuel 0

/-- Witness of C9: two arrays of two records that agree on the keys and differ
in a `val` field are reported the same. -/
theorem compareArrays_reports_first_difference_witness :
    (2 ≤ [(⟨2, 0⟩ : el_t), ⟨22, 1⟩].length ∧ 2 ≤ [(⟨2, 5⟩ : el_t), ⟨22, 1⟩].length ∧
      2 < 4294967296 ∧ 2 < 3) ∧
    (compareArrays 3 [⟨2, 0⟩, ⟨22, 1⟩] [⟨2, 5⟩, ⟨22, 1⟩] 2 = .ok [.arraysSame] ↔
      ∀ i, i < 2 → keyAt [⟨2, 0⟩, ⟨22, 1⟩] i = keyAt [⟨2, 5⟩, ⟨22, 1⟩] i) :=
  ⟨by decide,
    (compareArrays_reports_first_difference 3 [⟨2, 0⟩, ⟨22, 1⟩] [⟨2, 5⟩, ⟨22, 1⟩] 2
      (by decide) (by decide) (by decide) (by decide)).1⟩

/-! ## Properties of `printTable` -/

/-- A row loop whose end index is below the greatest `uint_t` value, on a
table that has a record at the end index, returns after reading the indices
from `i` to the end index once each, in order. -/
theorem printRow_returns (field : el_t → Nat) (table : List el_t) (endIndex : Nat)
    (hlen : endIndex < table.length) (h32 : endIndex + 1 < 4294967296) :
    ∀ (fuel i : Nat) (t : PrintTrace), i ≤ endIndex + 1 → endIndex + 1 - i < fuel →
      ∃ r, printRow field table endIndex fuel i t = .ok r ∧
        r.reads = t.reads ++ List.range' i (endIndex + 1 - i) ∧
        r.out.length = t.out.length + (endIndex + 1 - i) := by
  intro fuel
  induction fuel with
  | zero => intro i t _ hf; omega
  | succ fuel ih =>
    intro i t hi hf
    unfold printRow
    by_cases hle : i ≤ endIndex
    · obtain ⟨e, he, _⟩ := keyAt_eq_some_of_lt table i (by omega)
      have hwrap : (i + 1) % 4294967296 = i + 1 := Nat.mod_eq_of_lt (by omega)
      simp only [if_pos hle, he, hwrap]
      obtain ⟨r, hr, hreads, hout⟩ := ih (i + 1)
        { reads := t.reads ++ [i],
          out := t.out ++ [.cell (field e) (if i = endIndex then "" else ", ")] }
        (by omega) (by omega)
      refine ⟨r, hr, ?_, ?_⟩
      · rw [hreads]
        have hsplit : endIndex + 1 - i = (endIndex + 1 - (i + 1)) + 1 := by omega
        rw [hsplit, List.range'_succ]
        simp
      · rw [hout]
        simp
        omega
    · have hzero : endIndex + 1 - i = 0 := by omega
      refine ⟨t, by simp only [if_neg hle], ?_, ?_⟩
      · simp [hzero]
      · simp [hzero]

/-- A row loop whose end index is the greatest `uint_t` value never returns:
its condition `i <= endIndex` holds for every `uint_t` counter. -/
theorem printRow_never_returns (field : el_t → Nat) (table : List el_t) :
    ∀ (fuel i : Nat) (t r : PrintTrace), i < 4294967296 →
      printRow field table 4294967295 fuel i t ≠ .ok r := by
  intro fuel
  induction fuel with
  | zero =>
    intro i t r _ h
    simp [printRow] at h
  | succ fuel ih =>
    intro i t r hi
    unfold printRow
    have hle : i ≤ 4294967295 := by omega
    simp only [if_pos hle]
    cases he : table[i]? with
    | none => simp
    | some e => exact ih _ _ r (Nat.mod_lt _ (by decide))

/-- On a table of fewer than `2^32` records, a row loop whose end index is the
greatest `uint_t` value reads past the last record. -/
theorem printRow_runs_off_table (field : el_t → Nat) (table : List el_t)
    (hlen : table.length < 4294967296) :
    ∀ (fuel i : Nat) (t : PrintTrace), i ≤ table.length → table.length - i < fuel →
      printRow field table 4294967295 fuel i t = .error (.outOfBounds table.length) := by
  intro fuel
  induction fuel with
  | zero => intro i t _ hf; omega
  | succ fuel ih =>
    intro i t hi hf
    unfold printRow
    have hle : i ≤ 4294967295 := by omega
    simp only [if_pos hle]
    by_cases hlt : i < table.length
    · obtain ⟨e, he, _⟩ := keyAt_eq_some_of_lt table i hlt
      have hwrap : (i + 1) % 4294967296 = i + 1 := Nat.mod_eq_of_lt (by omega)
      simp only [he, hwrap]
      exact ih (i + 1) _ (by omega) (by omega)
    · have heq : i = table.length := by omega
      subst heq
      have hnone : table[table.length]? = none := List.getElem?_eq_none (Nat.le_refl _)
      simp only [hnone]

/-- For a table length from 1 to `2^32 - 1` on a table with that many records,
`printTable` returns and has read the indices below `tableLen` once per row. -/
theorem printTable_returns (fuel : Nat) (table : List el_t) (tableLen : Nat)
    (hpos : 0 < tableLen) (h32 : tableLen < 4294967296) (hlen : tableLen ≤ table.length)
    (hfuel : tableLen < fuel) :
    ∃ r, printTable fuel table tableLen = .ok r ∧
      r.reads = List.range tableLen ++ List.range tableLen ∧
      r.out.length = 2 * tableLen + 2 := by
  have hend : wrapUint ((tableLen : Int) - 1) = tableLen - 1 := by
    unfold Quicksort.wrapUint
    omega
  unfold printTable printTableRange
  rw [hend]
  obtain ⟨r1, hr1, hreads1, hout1⟩ := printRow_returns Element.key table (tableLen - 1)
    (by omega) (by omega) fuel 0 { reads := [], out := [] } (by omega) (by omega)
  obtain ⟨r2, hr2, hreads2, hout2⟩ := printRow_returns Element.val table (tableLen - 1)
    (by omega) (by omega) fuel 0 { r1 with out := r1.out ++ [.rowEnd] } (by omega) (by omega)
  have hn : tableLen - 1 + 1 - 0 = tableLen := by omega
  rw [hn] at hreads1 hreads2 hout1 hout2
  simp only [hr1, hr2]
  refine ⟨_, rfl, ?_, ?_⟩
  · simp only [hreads2, hreads1, List.range_eq_range']
    simp
  · simp only [List.length_append, hout2, hout1, List.length_singleton, List.length_nil]
    omega

/-- C10, at the failing input `tableLen = 0`: the end index `tableLen - 1` is
the greatest `uint_t` value, so on every table and with every iteration budget
`printTable` ends in a fault and does not return; with the empty table it
reads index 0, and with the eight records of the driver it reads the indices
0 to 8, none of them below `tableLen`, the last one not a record of the
table. -/
theorem printTable_zero_length_never_returns :
    (∀ (fuel : Nat) (table : List el_t), ∃ f, printTable fuel table 0 = .error f) ∧
    (∀ (fuel : Nat), printTable (fuel + 1) [] 0 = .error (.outOfBounds 0)) ∧
    printTable 9 BitonicSort.input 0 = .error (.outOfBounds 8) := by
  have hend : wrapUint ((0 : Nat) - 1 : Int) = 4294967295 := by decide
  refine ⟨?_, ?_, ?_⟩
  · intro fuel table
    unfold printTable printTableRange
    rw [hend]
    cases h1 : printRow Element.key table 4294967295 fuel 0 { reads := [], out := [] } with
    | error f => exact ⟨f, rfl⟩
    | ok t1 => exact absurd h1 (printRow_never_returns _ _ _ _ _ _ (by decide))
  · intro fuel
    unfold printTable printTableRange
    rw [hend]
    have := printRow_runs_off_table Element.key [] (by decide) (fuel + 1) 0
      { reads := [], out := [] } (Nat.le_refl 0) (by simp)
    simp only [this, List.length_nil]
  · decide

/-! ## The modelled scheduler on the source descriptors -/

namespace BitonicSort

open Quicksort

/-! ### Ranges of a buffer -/

theorem getElem?_readRange (table : List el_t) (start length k : Nat) :
    (readRange table start length)[k]? = if k < length then table[start + k]? else none := by
  simp only [readRange, List.getElem?_take, List.getElem?_drop]

theorem getElem?_writeRange (table : List el_t) (start : Nat) (data : List el_t) (i : Nat)
    (hfit : start + data.length ≤ table.length) :
    (writeRange table start data)[i]? =
      if i < start then table[i]? else if i < start + data.length then data[i - start]?
      else table[i]? := by
  have hlen : (table.take start).length = start := by
    rw [List.length_take]
    omega
  unfold writeRange
  by_cases h1 : i < start
  · rw [if_pos h1, List.append_assoc, List.getElem?_append_left (by omega),
      List.getElem?_take_of_lt h1]
  · rw [if_neg h1, List.append_assoc, List.getElem?_append_right (by omega), hlen]
    by_cases h2 : i < start + data.length
    · rw [if_pos h2, List.getElem?_append_left (by omega)]
    · rw [if_neg h2, List.getElem?_append_right (by omega), List.getElem?_drop]
      congr 1
      omega

theorem length_writeRange (table : List el_t) (start : Nat) (data : List el_t)
    (hfit : start + data.length ≤ table.length) :
    (writeRange table start data).length = table.length := by
  simp only [writeRange, List.length_append, List.length_take, List.length_drop]
  omega

theorem length_readRange (table : List el_t) (start length : Nat)
    (hfit : start + length ≤ table.length) :
    (readRange table start length).length = length := by
  simp only [readRange, List.length_take, List.length_drop]
  omega

/-- Two buffers that agree on a range give the same records there. -/
theorem readRange_congr (a b : List el_t) (start length : Nat)
    (h : ∀ i, start ≤ i → i < start + length → a[i]? = b[i]?) :
    readRange a start length = readRange b start length := by
  apply List.ext_getElem?
  intro k
  rw [getElem?_readRange, getElem?_readRange]
  by_cases hk : k < length
  · rw [if_pos hk, if_pos hk]
    exact h _ (by omega) (by omega)
  · rw [if_neg hk, if_neg hk]

theorem readRange_add (table : List el_t) (start l1 l2 : Nat) :
    readRange table start (l1 + l2)
      = readRange table start l1 ++ readRange table (start + l1) l2 := by
  simp only [readRange, List.take_add, List.drop_drop]

/-- What was stored in a range is read back from it. -/
theorem readRange_writeRange (table : List el_t) (start : Nat) (data : List el_t)
    (hfit : start + data.length ≤ table.length) :
    readRange (writeRange table start data) start data.length = data := by
  apply List.ext_getElem?
  intro k
  rw [getElem?_readRange]
  by_cases hk : k < data.length
  · rw [if_pos hk, getElem?_writeRange _ _ _ _ hfit, if_neg (by omega), if_pos (by omega)]
    congr 1
    omega
  · rw [if_neg hk]
    exact (List.getElem?_eq_none (by omega)).symm

/-- A part of what was stored in a range is read back from its place. -/
theorem readRange_writeRange_part (table : List el_t) (start : Nat) (front part back : List el_t)
    (hfit : start + (front ++ part ++ back).length ≤ table.length) :
    readRange (writeRange table start (front ++ part ++ back)) (start + front.length)
      part.length = part := by
  apply List.ext_getElem?
  intro k
  simp only [List.length_append] at hfit
  rw [getElem?_readRange]
  by_cases hk : k < part.length
  · rw [if_pos hk, getElem?_writeRange _ _ _ _ (by simp only [List.length_append]; omega),
      if_neg (by omega), if_pos (by simp only [List.length_append]; omega),
      List.getElem?_append_left (by simp only [List.length_append]; omega),
      List.getElem?_append_right (by omega)]
    congr 1
    omega
  · rw [if_neg hk]
    exact (List.getElem?_eq_none (by omega)).symm

/-! ### Arithmetic of `data_t` values within range -/

theorem wrapInt_of_range (x : Int) (hlo : -2147483648 ≤ x) (hhi : x < 2147483648) :
    wrapInt x = x := by
  unfold wrapInt
  omega

theorem keyValue_of_lt (e : el_t) (h : (e.key : Int) < 2147483648) : keyValue e = e.key := by
  unfold keyValue
  exact wrapInt_of_range _ (by omega) h

/-- Without overflow of the sum, the pivot expression of `setFromHostSeq` lies
at or above the lower bound and strictly below the upper bound. -/
theorem pivot_in_room (lo hi : Int) (hlo : 0 ≤ lo) (hroom : lo < hi) (hhi : hi < 1073741824) :
    lo ≤ Int.tdiv (wrapInt (lo + hi)) 2 ∧ Int.tdiv (wrapInt (lo + hi)) 2 < hi := by
  rw [wrapInt_of_range _ (by omega) (by omega), Int.tdiv_eq_ediv (by omega) (by decide)]
  omega

theorem foldl_max_le (l : List el_t) (bound : Int) :
    ∀ init : Int, init ≤ bound → (∀ e ∈ l, keyValue e ≤ bound) →
      l.foldl (fun m e => max m (keyValue e)) init ≤ bound := by
  induction l with
  | nil => intro init hi _; simpa using hi
  | cons x rest ih =>
    intro init hi hall
    simp only [List.foldl_cons]
    have hx := hall x (List.mem_cons_self _ _)
    exact ih _ (by omega) (fun e he => hall e (List.mem_cons_of_mem _ he))

theorem le_foldl_max (l : List el_t) :
    ∀ init : Int, init ≤ l.foldl (fun m e => max m (keyValue e)) init ∧
      ∀ e ∈ l, keyValue e ≤ l.foldl (fun m e => max m (keyValue e)) init := by
  induction l with
  | nil => intro init; exact ⟨by simp, fun e he => by cases he⟩
  | cons x rest ih =>
    intro init
    simp only [List.foldl_cons]
    obtain ⟨h1, h2⟩ := ih (max init (keyValue x))
    refine ⟨by omega, fun e he => ?_⟩
    rcases List.mem_cons.mp he with rfl | hmem
    · omega
    · exact h2 e hmem

theorem le_foldl_min (l : List el_t) (bound : Int) :
    ∀ init : Int, bound ≤ init → (∀ e ∈ l, bound ≤ keyValue e) →
      bound ≤ l.foldl (fun m e => min m (keyValue e)) init := by
  induction l with
  | nil => intro init hi _; simpa using hi
  | cons x rest ih =>
    intro init hi hall
    simp only [List.foldl_cons]
    have hx := hall x (List.mem_cons_self _ _)
    exact ih _ (by omega) (fun e he => hall e (List.mem_cons_of_mem _ he))

theorem foldl_min_le (l : List el_t) :
    ∀ init : Int, l.foldl (fun m e => min m (keyValue e)) init ≤ init ∧
      ∀ e ∈ l, l.foldl (fun m e => min m (keyValue e)) init ≤ keyValue e := by
  induction l with
  | nil => intro init; exact ⟨by simp, fun e he => by cases he⟩
  | cons x rest ih =>
    intro init
    simp only [List.foldl_cons]
    obtain ⟨h1, h2⟩ := ih (min init (keyValue x))
    refine ⟨by omega, fun e he => ?_⟩
    rcases List.mem_cons.mp he with rfl | hmem
    · omega
    · exact h2 e hmem

/-- The three classes of a partition pass hold every record exactly once. -/
theorem classes_perm (pivot : Int) (seq : List el_t) :
    (lowerClass pivot seq ++ equalClass pivot seq ++ greaterClass pivot seq).Perm seq := by
  unfold lowerClass equalClass greaterClass
  induction seq with
  | nil => simp
  | cons e rest ih =>
    rcases Int.lt_trichotomy (keyValue e) pivot with hlt | heq | hgt
    · have h2 : ¬ keyValue e = pivot := by omega
      have h3 : ¬ pivot < keyValue e := by omega
      simp only [List.filter_cons, hlt, h2, h3, decide_True, decide_False, if_true,
        Bool.false_eq_true, if_false, List.cons_append]
      exact List.Perm.cons e ih
    · subst heq
      simp only [List.filter_cons, Int.lt_irrefl, decide_True, decide_False, if_true,
        Bool.false_eq_true, if_false, List.append_assoc, List.cons_append]
      refine List.Perm.trans List.perm_middle (List.Perm.cons e ?_)
      simpa only [List.append_assoc] using ih
    · have h1 : ¬ keyValue e < pivot := by omega
      have h2 : ¬ keyValue e = pivot := by omega
      simp only [List.filter_cons, h1, h2, hgt, decide_True, decide_False, if_true,
        Bool.false_eq_true, if_false]
      exact List.Perm.trans List.perm_middle (List.Perm.cons e ih)

/-! ### Frames -/

theorem agreeOutside_refl (a : List el_t) (start length : Nat) :
    AgreeOutside a a start length :=
  ⟨rfl, fun _ _ => rfl⟩

theorem agreeOutside_trans {a b c : List el_t} {start length : Nat}
    (hab : AgreeOutside a b start length) (hbc : AgreeOutside b c start length) :
    AgreeOutside a c start length :=
  ⟨hab.1.trans hbc.1, fun i hi => (hab.2 i hi).trans (hbc.2 i hi)⟩

theorem agreeOutside_mono {a b : List el_t} {start length start2 length2 : Nat}
    (hab : AgreeOutside a b start2 length2) (hlo : start ≤ start2)
    (hhi : start2 + length2 ≤ start + length) : AgreeOutside a b start length :=
  ⟨hab.1, fun i hi => hab.2 i (by omega)⟩

theorem agreeOutside_writeRange (table : List el_t) (start : Nat) (data : List el_t)
    (hfit : start + data.length ≤ table.length) :
    AgreeOutside (writeRange table start data) table start data.length := by
  refine ⟨length_writeRange table start data hfit, fun i hi => ?_⟩
  rw [getElem?_writeRange table start data i hfit]
  by_cases h1 : i < start
  · rw [if_pos h1]
  · rw [if_neg h1, if_neg (by omega)]

/-- A range that lies outside the range where two buffers may differ reads
the same from both. -/
theorem readRange_of_agreeOutside {a b : List el_t} {start length : Nat}
    (hab : AgreeOutside a b start length) (s l : Nat)
    (hdisj : s + l ≤ start ∨ start + length ≤ s) :
    readRange a s l = readRange b s l :=
  readRange_congr a b s l (fun i h1 h2 => hab.2 i (by omega))

theorem frame_refl (b : Buffers) (start length : Nat) : Frame b b start length :=
  ⟨agreeOutside_refl _ _ _, agreeOutside_refl _ _ _, agreeOutside_refl _ _ _⟩

theorem frame_trans {a b c : Buffers} {start length : Nat}
    (hab : Frame a b start length) (hbc : Frame b c start length) : Frame a c start length :=
  ⟨agreeOutside_trans hab.1 hbc.1, agreeOutside_trans hab.2.1 hbc.2.1,
    agreeOutside_trans hab.2.2 hbc.2.2⟩

theorem frame_mono {a b : Buffers} {start length start2 length2 : Nat}
    (hab : Frame a b start2 length2) (hlo : start ≤ start2)
    (hhi : start2 + length2 ≤ start + length) : Frame a b start length :=
  ⟨agreeOutside_mono hab.1 hlo hhi, agreeOutside_mono hab.2.1 hlo hhi,
    agreeOutside_mono hab.2.2 hlo hhi⟩

theorem frame_source {a b : Buffers} {start length : Nat} (hab : Frame a b start length)
    (d : TransferDirection) : AgreeOutside (a.source d) (b.source d) start length := by
  cases d
  · exact hab.1
  · exact hab.2.1

theorem source_complement (b : Buffers) (d : TransferDirection) :
    b.source (TransferDirection.ofBool d.lnot) = b.target d := by
  cases d <;> rfl

theorem lt_of_mem_lowerClass {pivot : Int} {live : List el_t} {e : el_t}
    (he : e ∈ lowerClass pivot live) : e ∈ live ∧ keyValue e < pivot := by
  simpa [lowerClass, List.mem_filter] using he

theorem eq_of_mem_equalClass {pivot : Int} {live : List el_t} {e : el_t}
    (he : e ∈ equalClass pivot live) : e ∈ live ∧ keyValue e = pivot := by
  simpa [equalClass, List.mem_filter] using he

theorem lt_of_mem_greaterClass {pivot : Int} {live : List el_t} {e : el_t}
    (he : e ∈ greaterClass pivot live) : e ∈ live ∧ pivot < keyValue e := by
  simpa [greaterClass, List.mem_filter] using he

theorem scatter_target (b : Buffers) (d : TransferDirection) (start : Nat) (data : List el_t) :
    (b.scatter d start data).target d = writeRange (b.target d) start data := by
  cases d <;> rfl

theorem scatter_dataOutput (b : Buffers) (d : TransferDirection) (start : Nat)
    (data : List el_t) : (b.scatter d start data).dataOutput = b.dataOutput := by
  cases d <;> rfl

theorem target_with_dataOutput (b : Buffers) (out : List el_t) (d : TransferDirection) :
    ({ b with dataOutput := out } : Buffers).target d = b.target d := by
  cases d <;> rfl

theorem length_target (b : Buffers) (d : TransferDirection) (n : Nat)
    (hin : b.dataInput.length = n) (hbuf : b.dataBuffer.length = n) :
    (b.target d).length = n := by
  cases d
  · exact hbuf
  · exact hin

theorem length_source (b : Buffers) (d : TransferDirection) (n : Nat)
    (hin : b.dataInput.length = n) (hbuf : b.dataBuffer.length = n) :
    (b.source d).length = n := by
  cases d
  · exact hin
  · exact hbuf

theorem frame_scatter (b : Buffers) (d : TransferDirection) (start : Nat) (data : List el_t)
    (n : Nat) (hin : b.dataInput.length = n) (hbuf : b.dataBuffer.length = n)
    (hfit : start + data.length ≤ n) :
    Frame (b.scatter d start data) b start data.length := by
  cases d
  · exact ⟨agreeOutside_refl _ _ _, agreeOutside_writeRange _ _ _ (by rw [hbuf]; exact hfit),
      agreeOutside_refl _ _ _⟩
  · exact ⟨agreeOutside_writeRange _ _ _ (by rw [hin]; exact hfit), agreeOutside_refl _ _ _,
      agreeOutside_refl _ _ _⟩

theorem frame_dataOutput (b : Buffers) (start : Nat) (data : List el_t)
    (hfit : start + data.length ≤ b.dataOutput.length) :
    Frame { b with dataOutput := writeRange b.dataOutput start data } b start data.length :=
  ⟨agreeOutside_refl _ _ _, agreeOutside_refl _ _ _, agreeOutside_writeRange _ _ _ hfit⟩

/-! ### One round -/

theorem roundPivot_eq (h : HostGlobalSequence) :
    roundPivot h = Int.tdiv (wrapInt (h.minVal + h.maxVal)) 2 :=
  rfl

theorem round_lower_start (h : HostGlobalSequence) (b : Buffers) :
    (partitionRound h b).1.start = h.oldStart :=
  rfl

theorem round_lower_oldStart (h : HostGlobalSequence) (b : Buffers) :
    (partitionRound h b).1.oldStart = h.oldStart :=
  rfl

theorem round_lower_length (h : HostGlobalSequence) (b : Buffers) :
    (partitionRound h b).1.length
      = 0 + (lowerClass (roundPivot h) (liveRecords h b)).length :=
  rfl

theorem round_lower_minVal (h : HostGlobalSequence) (b : Buffers) :
    (partitionRound h b).1.minVal = h.minVal :=
  rfl

theorem round_lower_maxVal (h : HostGlobalSequence) (b : Buffers) :
    (partitionRound h b).1.maxVal
      = (lowerClass (roundPivot h) (liveRecords h b)).foldl
          (fun m e => max m (keyValue e)) MIN_VAL :=
  rfl

theorem round_lower_direction (h : HostGlobalSequence) (b : Buffers) :
    (partitionRound h b).1.direction = TransferDirection.ofBool h.direction.lnot :=
  rfl

theorem round_greater_start (h : HostGlobalSequence) (b : Buffers) :
    (partitionRound h b).2.1.start
      = wrapUint ((wrapUint ((h.oldStart : Int) + (h.length : Int)) : Int)
          - ((0 + (greaterClass (roundPivot h) (liveRecords h b)).length : Nat) : Int)) :=
  rfl

theorem round_greater_oldStart (h : HostGlobalSequence) (b : Buffers) :
    (partitionRound h b).2.1.oldStart = (partitionRound h b).2.1.start :=
  rfl

theorem round_greater_length (h : HostGlobalSequence) (b : Buffers) :
    (partitionRound h b).2.1.length
      = 0 + (greaterClass (roundPivot h) (liveRecords h b)).length :=
  rfl

theorem round_greater_minVal (h : HostGlobalSequence) (b : Buffers) :
    (partitionRound h b).2.1.minVal
      = (greaterClass (roundPivot h) (liveRecords h b)).foldl
          (fun m e => min m (keyValue e)) MAX_VAL :=
  rfl

theorem round_greater_maxVal (h : HostGlobalSequence) (b : Buffers) :
    (partitionRound h b).2.1.maxVal = h.maxVal :=
  rfl

theorem round_greater_direction (h : HostGlobalSequence) (b : Buffers) :
    (partitionRound h b).2.1.direction = TransferDirection.ofBool h.direction.lnot :=
  rfl

theorem round_buffers (h : HostGlobalSequence) (b : Buffers) :
    (partitionRound h b).2.2 =
      { b.scatter h.direction h.start
          (lowerClass (roundPivot h) (liveRecords h b)
            ++ equalClass (roundPivot h) (liveRecords h b)
            ++ greaterClass (roundPivot h) (liveRecords h b)) with
        dataOutput := writeRange
          (b.scatter h.direction h.start
            (lowerClass (roundPivot h) (liveRecords h b)
              ++ equalClass (roundPivot h) (liveRecords h b)
              ++ greaterClass (roundPivot h) (liveRecords h b))).dataOutput
          ((partitionRound h b).1.start + (partitionRound h b).1.length)
          (readRange
            ((b.scatter h.direction h.start
              (lowerClass (roundPivot h) (liveRecords h b)
                ++ equalClass (roundPivot h) (liveRecords h b)
                ++ greaterClass (roundPivot h) (liveRecords h b))).target h.direction)
            ((partitionRound h b).1.start + (partitionRound h b).1.length)
            ((partitionRound h b).2.1.start
              - ((partitionRound h b).1.start + (partitionRound h b).1.length))) } :=
  rfl

theorem Ready.length_live {h : HostGlobalSequence} {b : Buffers} {n : Nat} (r : Ready h b n) :
    (liveRecords h b).length = h.length :=
  length_readRange _ _ _ (by
    rw [length_source b h.direction n r.input r.buffer]
    exact r.fit)

theorem Ready.keyValue_eq {h : HostGlobalSequence} {b : Buffers} {n : Nat} (r : Ready h b n)
    (e : el_t) (he : e ∈ liveRecords h b) : keyValue e = (e.key : Int) :=
  keyValue_of_lt e (by
    have := r.keys e he
    have := r.high
    omega)

theorem Ready.classes_length {h : HostGlobalSequence} {b : Buffers} {n : Nat} (r : Ready h b n)
    (pivot : Int) :
    (lowerClass pivot (liveRecords h b)).length + (equalClass pivot (liveRecords h b)).length
      + (greaterClass pivot (liveRecords h b)).length = h.length := by
  have := (classes_perm pivot (liveRecords h b)).length_eq
  rw [r.length_live] at this
  simpa only [List.length_append] using this

theorem Ready.pivot_room {h : HostGlobalSequence} {b : Buffers} {n : Nat} (r : Ready h b n)
    (hroom : h.minVal < h.maxVal) : h.minVal ≤ roundPivot h ∧ roundPivot h < h.maxVal := by
  rw [roundPivot_eq]
  exact pivot_in_room h.minVal h.maxVal r.low hroom r.high

theorem Ready.lower_maxVal_lt {h : HostGlobalSequence} {b : Buffers} {n : Nat}
    (r : Ready h b n) (hroom : h.minVal < h.maxVal) :
    (partitionRound h b).1.maxVal < h.maxVal := by
  rw [round_lower_maxVal]
  have hp := r.pivot_room hroom
  have hle := foldl_max_le (lowerClass (roundPivot h) (liveRecords h b)) (h.maxVal - 1) MIN_VAL
    (by have := r.low; unfold MIN_VAL; omega)
    (fun e he => by
      have := (lt_of_mem_lowerClass he).2
      omega)
  omega

theorem Ready.lt_greater_minVal {h : HostGlobalSequence} {b : Buffers} {n : Nat}
    (r : Ready h b n) (hroom : h.minVal < h.maxVal) :
    h.minVal < (partitionRound h b).2.1.minVal := by
  rw [round_greater_minVal]
  have hp := r.pivot_room hroom
  have hle := le_foldl_min (greaterClass (roundPivot h) (liveRecords h b)) (h.minVal + 1)
    MAX_VAL (by have := r.high; unfold MAX_VAL; omega)
    (fun e he => by
      have := (lt_of_mem_greaterClass he).2
      omega)
  omega

theorem Ready.greater_start {h : HostGlobalSequence} {b : Buffers} {n : Nat} (r : Ready h b n) :
    (partitionRound h b).2.1.start
      = h.start + (lowerClass (roundPivot h) (liveRecords h b)).length
        + (equalClass (roundPivot h) (liveRecords h b)).length := by
  have hsum := r.classes_length (roundPivot h)
  have := r.fit
  have := r.size
  rw [round_greater_start, Nat.zero_add, greater_start_exact _ _ _ (by omega) (by rw [r.old]; omega),
    r.old]
  omega

/-- The buffers after one round: the three classes are in the scratch range of
the sequence, in this order, and the equal run is in the result. -/
theorem Ready.round_buffers_eq {h : HostGlobalSequence} {b : Buffers} {n : Nat}
    (r : Ready h b n) :
    (partitionRound h b).2.2 =
      { b.scatter h.direction h.start
          (lowerClass (roundPivot h) (liveRecords h b)
            ++ equalClass (roundPivot h) (liveRecords h b)
            ++ greaterClass (roundPivot h) (liveRecords h b)) with
        dataOutput := writeRange b.dataOutput
          (h.start + (lowerClass (roundPivot h) (liveRecords h b)).length)
          (equalClass (roundPivot h) (liveRecords h b)) } := by
  have hsum := r.classes_length (roundPivot h)
  have hfit := r.fit
  rw [round_buffers, scatter_dataOutput, scatter_target, r.greater_start, round_lower_start,
    round_lower_length, r.old, Nat.zero_add]
  have hlen : h.start + (lowerClass (roundPivot h) (liveRecords h b)).length
      + (equalClass (roundPivot h) (liveRecords h b)).length
      - (h.start + (lowerClass (roundPivot h) (liveRecords h b)).length)
      = (equalClass (roundPivot h) (liveRecords h b)).length := by omega
  rw [hlen, readRange_writeRange_part (b.target h.direction) h.start _ _ _ (by
    rw [length_target b h.direction n r.input r.buffer]
    simp only [List.length_append]
    omega)]

theorem readRange_writeRange_front (table : List el_t) (start : Nat) (part back : List el_t)
    (hfit : start + (part ++ back).length ≤ table.length) :
    readRange (writeRange table start (part ++ back)) start part.length = part := by
  have := readRange_writeRange_part table start [] part back (by simpa using hfit)
  simpa using this

theorem readRange_writeRange_back (table : List el_t) (start : Nat) (front part : List el_t)
    (hfit : start + (front ++ part).length ≤ table.length) :
    readRange (writeRange table start (front ++ part)) (start + front.length) part.length
      = part := by
  have := readRange_writeRange_part table start front part [] (by simpa using hfit)
  simpa using this

theorem readRange_zero (table : List el_t) (start : Nat) : readRange table start 0 = [] := by
  simp [readRange]

/-- One round changes the buffers only within the range of the sequence. -/
theorem Ready.round_frame {h : HostGlobalSequence} {b : Buffers} {n : Nat} (r : Ready h b n) :
    Frame (partitionRound h b).2.2 b h.start h.length := by
  have hsum := r.classes_length (roundPivot h)
  have hfit := r.fit
  have hsc := frame_scatter b h.direction h.start
    (lowerClass (roundPivot h) (liveRecords h b) ++ equalClass (roundPivot h) (liveRecords h b)
      ++ greaterClass (roundPivot h) (liveRecords h b)) n r.input r.buffer
    (by simp only [List.length_append]; omega)
  have hlen : (lowerClass (roundPivot h) (liveRecords h b)
      ++ equalClass (roundPivot h) (liveRecords h b)
      ++ greaterClass (roundPivot h) (liveRecords h b)).length = h.length := by
    simp only [List.length_append]
    omega
  rw [hlen] at hsc
  rw [r.round_buffers_eq]
  refine ⟨hsc.1, hsc.2.1, ?_⟩
  have hw := agreeOutside_writeRange b.dataOutput
    (h.start + (lowerClass (roundPivot h) (liveRecords h b)).length)
    (equalClass (roundPivot h) (liveRecords h b)) (by rw [r.output]; omega)
  exact agreeOutside_mono hw (by omega) (by omega)

/-- The result table after one round holds the equal run right after the place
of the lower child. -/
theorem Ready.round_equal_run {h : HostGlobalSequence} {b : Buffers} {n : Nat}
    (r : Ready h b n) :
    readRange (partitionRound h b).2.2.dataOutput
      (h.start + (lowerClass (roundPivot h) (liveRecords h b)).length)
      (equalClass (roundPivot h) (liveRecords h b)).length
      = equalClass (roundPivot h) (liveRecords h b) := by
  have hsum := r.classes_length (roundPivot h)
  have hfit := r.fit
  rw [r.round_buffers_eq]
  exact readRange_writeRange _ _ _ (by rw [r.output]; omega)

/-- The live records of a child are read from the scratch buffer of its parent. -/
theorem Ready.round_source {h : HostGlobalSequence} {b : Buffers} {n : Nat} (r : Ready h b n) :
    (partitionRound h b).2.2.source (TransferDirection.ofBool h.direction.lnot)
      = writeRange (b.target h.direction) h.start
          (lowerClass (roundPivot h) (liveRecords h b)
            ++ equalClass (roundPivot h) (liveRecords h b)
            ++ greaterClass (roundPivot h) (liveRecords h b)) := by
  rw [r.round_buffers_eq, source_complement, target_with_dataOutput, scatter_target]

/-- The live records of the lower child are the lower class. -/
theorem Ready.lower_live {h : HostGlobalSequence} {b : Buffers} {n : Nat} (r : Ready h b n) :
    liveRecords (partitionRound h b).1 (partitionRound h b).2.2
      = lowerClass (roundPivot h) (liveRecords h b) := by
  have hsum := r.classes_length (roundPivot h)
  have hfit := r.fit
  unfold liveRecords
  rw [round_lower_direction, r.round_source, round_lower_start, round_lower_length, r.old,
    Nat.zero_add, List.append_assoc]
  exact readRange_writeRange_front _ _ _ _ (by
    rw [length_target b h.direction n r.input r.buffer]
    simp only [List.length_append]
    omega)

/-- The lower child is met by the scheduler in a ready state. -/
theorem Ready.lower {h : HostGlobalSequence} {b : Buffers} {n : Nat} (r : Ready h b n)
    (hroom : h.minVal < h.maxVal) :
    Ready (partitionRound h b).1 (partitionRound h b).2.2 n := by
  have hsum := r.classes_length (roundPivot h)
  have hframe := r.round_frame
  refine ⟨r.size, ?_, ?_, ?_, ?_, ?_, ?_, ?_, ?_⟩
  · rw [round_lower_oldStart, round_lower_start]
  · rw [round_lower_start, round_lower_length, r.old]
    have := r.fit
    omega
  · rw [hframe.1.1, r.input]
  · rw [hframe.2.1.1, r.buffer]
  · rw [hframe.2.2.1, r.output]
  · rw [round_lower_minVal]
    exact r.low
  · have := r.lower_maxVal_lt hroom
    have := r.high
    omega
  · intro e he
    rw [r.lower_live] at he
    have hm := lt_of_mem_lowerClass he
    have hk := r.keys e hm.1
    have hv := r.keyValue_eq e hm.1
    have hle := (le_foldl_max (lowerClass (roundPivot h) (liveRecords h b)) MIN_VAL).2 e he
    rw [round_lower_minVal, round_lower_maxVal]
    omega

/-- The live records of the greater child are the greater class, in every
state that differs from the one after the round only within the range of the
lower child. -/
theorem Ready.greater_live {h : HostGlobalSequence} {b : Buffers} {n : Nat} (r : Ready h b n)
    (b2 : Buffers)
    (hframe : Frame b2 (partitionRound h b).2.2 (partitionRound h b).1.start
      (partitionRound h b).1.length) :
    liveRecords (partitionRound h b).2.1 b2
      = greaterClass (roundPivot h) (liveRecords h b) := by
  have hsum := r.classes_length (roundPivot h)
  have hfit := r.fit
  unfold liveRecords
  rw [round_greater_direction, r.greater_start, round_greater_length, Nat.zero_add]
  rw [round_lower_start, round_lower_length, r.old, Nat.zero_add] at hframe
  rw [readRange_of_agreeOutside (frame_source hframe _) _ _ (Or.inr (by omega)), r.round_source,
    Nat.add_assoc, ← List.length_append]
  exact readRange_writeRange_back _ _ _ _ (by
    rw [length_target b h.direction n r.input r.buffer]
    simp only [List.length_append]
    omega)

/-- The greater child is met by the scheduler in a ready state. -/
theorem Ready.greater {h : HostGlobalSequence} {b : Buffers} {n : Nat} (r : Ready h b n)
    (hroom : h.minVal < h.maxVal) (b2 : Buffers)
    (hframe : Frame b2 (partitionRound h b).2.2 (partitionRound h b).1.start
      (partitionRound h b).1.length) :
    Ready (partitionRound h b).2.1 b2 n := by
  have hsum := r.classes_length (roundPivot h)
  have hround := r.round_frame
  refine ⟨r.size, ?_, ?_, ?_, ?_, ?_, ?_, ?_, ?_⟩
  · rw [round_greater_oldStart]
  · rw [r.greater_start, round_greater_length]
    have := r.fit
    omega
  · rw [hframe.1.1, hround.1.1, r.input]
  · rw [hframe.2.1.1, hround.2.1.1, r.buffer]
  · rw [hframe.2.2.1, hround.2.2.1, r.output]
  · have := r.lt_greater_minVal hroom
    have := r.low
    omega
  · rw [round_greater_maxVal]
    exact r.high
  · intro e he
    rw [r.greater_live b2 hframe] at he
    have hm := lt_of_mem_greaterClass he
    have hk := r.keys e hm.1
    have hv := r.keyValue_eq e hm.1
    have hle := (foldl_min_le (greaterClass (roundPivot h) (liveRecords h b)) MAX_VAL).2 e he
    rw [round_greater_minVal, round_greater_maxVal]
    omega

/-! ### The scheduler sorts when no sum of bounds overflows -/

/-- The local sort returns the records of the sequence in ascending key order. -/
theorem sortInPlace_ascending (seq : List el_t) :
    (sortInPlace true seq).Perm seq ∧ KeysAscending (sortInPlace true seq) := by
  simp only [sortInPlace, if_true]
  exact ⟨List.perm_insertionSort _ seq, List.sorted_insertionSort _ seq⟩

/-- A child is either empty and discarded, or scheduled. -/
theorem run_child (threshold n fuel : Nat)
    (ih : ∀ (h : HostGlobalSequence) (b : Buffers), Ready h b n →
      (h.maxVal - h.minVal).toNat < fuel →
      Settled h b (runSequence threshold fuel h b))
    (c : HostGlobalSequence) (b : Buffers) (r : Ready c b n)
    (hw : (c.maxVal - c.minVal).toNat < fuel) :
    Settled c b
      (if c.length = 0 then some b else runSequence threshold fuel c b) := by
  by_cases hz : c.length = 0
  · rw [if_pos hz]
    have hlive : liveRecords c b = [] := by
      have := r.length_live
      rw [hz] at this
      exact List.length_eq_zero.mp this
    refine ⟨b, [], rfl, frame_refl _ _ _, ?_, List.sorted_nil, ?_⟩
    · rw [hlive]
    · rw [hz, readRange_zero]
  · rw [if_neg hz]
    exact ih c b r hw

theorem runSequence_sorts (threshold n : Nat) :
    ∀ (fuel : Nat) (h : HostGlobalSequence) (b : Buffers), Ready h b n →
      (h.maxVal - h.minVal).toNat < fuel →
      Settled h b (runSequence threshold fuel h b) := by
  intro fuel
  induction fuel with
  | zero => intro h b _ hw; omega
  | succ fuel ih =>
    intro h b r hw
    have hfit := r.fit
    have hlen := r.length_live
    rw [runSequence]
    by_cases hth : h.length ≤ threshold
    · rw [if_pos hth]
      have hs := sortInPlace_ascending (liveRecords h b)
      have hl : (sortInPlace true (liveRecords h b)).length = h.length := by
        rw [hs.1.length_eq, hlen]
      refine ⟨_, sortInPlace true (liveRecords h b), rfl, ?_, hs.1, hs.2, ?_⟩
      · have hw := frame_dataOutput b h.start (sortInPlace true (liveRecords h b))
          (by rw [r.output, hl]; exact hfit)
        rw [hl] at hw
        exact hw
      · have := readRange_writeRange b.dataOutput h.start (sortInPlace true (liveRecords h b))
          (by rw [r.output, hl]; exact hfit)
        rw [hl] at this
        exact this
    · rw [if_neg hth]
      by_cases heq : h.minVal = h.maxVal
      · rw [if_pos heq]
        refine ⟨_, liveRecords h b, rfl, ?_, List.Perm.refl _, ?_, ?_⟩
        · have hw := frame_dataOutput b h.start (liveRecords h b)
            (by rw [r.output, hlen]; exact hfit)
          rw [hlen] at hw
          exact hw
        · refine List.pairwise_of_forall_mem_list (fun x hx y hy => ?_)
          have := r.keys x hx
          have := r.keys y hy
          show x.key ≤ y.key
          omega
        · have := readRange_writeRange b.dataOutput h.start (liveRecords h b)
            (by rw [r.output, hlen]; exact hfit)
          rw [hlen] at this
          exact this
      · rw [if_neg heq]
        -- the sequence is not empty, so its bounds leave room
        have hroom : h.minVal < h.maxVal := by
          have hpos : 0 < (liveRecords h b).length := by omega
          obtain ⟨x, hx⟩ := List.exists_mem_of_length_pos hpos
          have := r.keys x hx
          omega
        have hsum := r.classes_length (roundPivot h)
        -- the lower child
        obtain ⟨b2, resL, hrunL, hframeL, hpermL, hsortedL, hreadL⟩ :=
          run_child threshold n fuel ih _ _ (r.lower hroom)
            (by
              have := r.lower_maxVal_lt hroom
              rw [round_lower_minVal]
              omega)
        -- the greater child
        obtain ⟨b3, resG, hrunG, hframeG, hpermG, hsortedG, hreadG⟩ :=
          run_child threshold n fuel ih _ b2 (r.greater hroom b2 hframeL)
            (by
              have := r.lt_greater_minVal hroom
              rw [round_greater_maxVal]
              omega)
        simp only [hrunL, hrunG]
        rw [r.lower_live] at hpermL
        rw [r.greater_live b2 hframeL] at hpermG
        rw [round_lower_start, round_lower_length, r.old, Nat.zero_add] at hframeL hreadL
        rw [r.greater_start, round_greater_length, Nat.zero_add] at hframeG hreadG
        have hround := r.round_frame
        have hequal := r.round_equal_run
        refine ⟨b3, resL ++ equalClass (roundPivot h) (liveRecords h b) ++ resG, rfl, ?_, ?_,
          ?_, ?_⟩
        · exact frame_trans
            (frame_trans (frame_mono hframeG (by omega) (by omega))
              (frame_mono hframeL (Nat.le_refl _) (by omega)))
            hround
        · exact ((hpermL.append (List.Perm.refl _)).append hpermG).trans
            (classes_perm (roundPivot h) (liveRecords h b))
        · have hkL : ∀ x ∈ resL, (x.key : Int) < roundPivot h := fun x hx => by
            have hm := lt_of_mem_lowerClass (hpermL.subset hx)
            have h2 := hm.2
            rw [r.keyValue_eq x hm.1] at h2
            exact h2
          have hkE : ∀ x ∈ equalClass (roundPivot h) (liveRecords h b),
              (x.key : Int) = roundPivot h := fun x hx => by
            have hm := eq_of_mem_equalClass hx
            have h2 := hm.2
            rw [r.keyValue_eq x hm.1] at h2
            exact h2
          have hkG : ∀ x ∈ resG, roundPivot h < (x.key : Int) := fun x hx => by
            have hm := lt_of_mem_greaterClass (hpermG.subset hx)
            have h2 := hm.2
            rw [r.keyValue_eq x hm.1] at h2
            exact h2
          refine List.pairwise_append.mpr ⟨List.pairwise_append.mpr ⟨hsortedL, ?_, ?_⟩,
            hsortedG, ?_⟩
          · refine List.pairwise_of_forall_mem_list (fun x hx y hy => ?_)
            have := hkE x hx
            have := hkE y hy
            show x.key ≤ y.key
            omega
          · intro x hx y hy
            have := hkL x hx
            have := hkE y hy
            show x.key ≤ y.key
            omega
          · intro x hx y hy
            have := hkG y hy
            show x.key ≤ y.key
            rcases List.mem_append.mp hx with hxl | hxe
            · have := hkL x hxl
              omega
            · have := hkE x hxe
              omega
        · have hsplit : h.length = (lowerClass (roundPivot h) (liveRecords h b)).length
              + ((equalClass (roundPivot h) (liveRecords h b)).length
                + (greaterClass (roundPivot h) (liveRecords h b)).length) := by omega
          have h1 : readRange b3.dataOutput h.start
              (lowerClass (roundPivot h) (liveRecords h b)).length = resL := by
            rw [readRange_of_agreeOutside hframeG.2.2 _ _ (Or.inl (by omega))]
            exact hreadL
          have h2 : readRange b3.dataOutput
              (h.start + (lowerClass (roundPivot h) (liveRecords h b)).length)
              (equalClass (roundPivot h) (liveRecords h b)).length
              = equalClass (roundPivot h) (liveRecords h b) := by
            rw [readRange_of_agreeOutside hframeG.2.2 _ _ (Or.inl (by omega)),
              readRange_of_agreeOutside hframeL.2.2 _ _ (Or.inr (by omega))]
            exact hequal
          rw [hsplit, readRange_add, readRange_add, h1, h2, hreadG, List.append_assoc]

/-! ### `sortParallel` against `sortCorrect` -/

theorem le_maxKey (seq : List el_t) : ∀ e ∈ seq, e.key ≤ maxKey seq := by
  induction seq with
  | nil => intro e he; cases he
  | cons f rest ih =>
    intro e he
    simp only [maxKey]
    rcases List.mem_cons.mp he with rfl | hmem
    · omega
    · have := ih e hmem
      omega

theorem minKey_le (seq : List el_t) : ∀ e ∈ seq, minKey seq ≤ e.key := by
  induction seq with
  | nil => intro e he; cases he
  | cons f rest ih =>
    intro e he
    cases rest with
    | nil =>
      rcases List.mem_cons.mp he with rfl | hmem
      · simp [minKey]
      · cases hmem
    | cons g more =>
      simp only [minKey] at ih ⊢
      rcases List.mem_cons.mp he with rfl | hmem
      · omega
      · have := ih e hmem
        omega

theorem maxKey_lt_of_forall_lt (seq : List el_t) (bound : Nat) (hpos : 0 < bound)
    (h : ∀ e ∈ seq, e.key < bound) : maxKey seq < bound := by
  induction seq with
  | nil => simpa [maxKey] using hpos
  | cons e rest ih =>
    have h1 := h e (List.mem_cons_self _ _)
    have h2 := ih (fun x hx => h x (List.mem_cons_of_mem _ hx))
    simp only [maxKey]
    omega

theorem minKey_le_maxKey (seq : List el_t) : minKey seq ≤ maxKey seq := by
  cases seq with
  | nil => simp [minKey, maxKey]
  | cons e rest =>
    exact Nat.le_trans (minKey_le _ e (List.mem_cons_self _ _))
      (le_maxKey _ e (List.mem_cons_self _ _))

theorem readRange_all (table : List el_t) (n : Nat) (hlen : table.length = n) :
    readRange table 0 n = table := by
  simp [readRange, List.take_of_length_le (Nat.le_of_eq hlen)]

/-- The seed state of `sortParallel` on a table whose keys are below `2^30`. -/
theorem seed_ready (input : List el_t) (tableLen : Nat) (hlen : tableLen ≤ input.length)
    (h32 : tableLen < 4294967296) (hkeys : ∀ e ∈ input.take tableLen, e.key < 1073741824) :
    Ready
      (newHostSeq.setInitSeq tableLen (wrapInt (minKey (input.take tableLen)))
        (wrapInt (maxKey (input.take tableLen))))
      { dataInput := input.take tableLen, dataBuffer := List.replicate tableLen default,
        dataOutput := List.replicate tableLen default } tableLen := by
  have hmax := maxKey_lt_of_forall_lt (input.take tableLen) 1073741824 (by decide) hkeys
  have hmm := minKey_le_maxKey (input.take tableLen)
  have hwmin : wrapInt (minKey (input.take tableLen)) = minKey (input.take tableLen) :=
    wrapInt_of_range _ (by omega) (by omega)
  have hwmax : wrapInt (maxKey (input.take tableLen)) = maxKey (input.take tableLen) :=
    wrapInt_of_range _ (by omega) (by omega)
  have htake : (input.take tableLen).length = tableLen := by
    rw [List.length_take]
    omega
  rw [hwmin, hwmax]
  refine ⟨h32, rfl, ?_, htake, List.length_replicate _ _, List.length_replicate _ _, ?_, ?_, ?_⟩
  · show 0 + tableLen ≤ tableLen
    omega
  · show (0 : Int) ≤ (minKey (input.take tableLen) : Int)
    omega
  · show ((maxKey (input.take tableLen) : Nat) : Int) < 1073741824
    omega
  · intro e he
    have hlive : liveRecords
        (newHostSeq.setInitSeq tableLen (minKey (input.take tableLen) : Int)
          (maxKey (input.take tableLen) : Int))
        { dataInput := input.take tableLen, dataBuffer := List.replicate tableLen default,
          dataOutput := List.replicate tableLen default } = input.take tableLen :=
      readRange_all _ _ htake
    rw [hlive] at he
    have h1 := minKey_le _ e he
    have h2 := le_maxKey _ e he
    show ((minKey (input.take tableLen) : Nat) : Int) ≤ (e.key : Int)
      ∧ (e.key : Int) ≤ ((maxKey (input.take tableLen) : Nat) : Int)
    omega

/-- On a table whose keys are below `2^30`, with more rounds allowed than the
distance between the least and the greatest key, ascending `sortParallel`
returns the first `tableLen` records in ascending key order. -/
theorem sortParallel_sorts (threshold fuel : Nat) (input : List el_t) (tableLen : Nat)
    (hlen : tableLen ≤ input.length) (h32 : tableLen < 4294967296)
    (hkeys : ∀ e ∈ input.take tableLen, e.key < 1073741824)
    (hfuel : maxKey (input.take tableLen) - minKey (input.take tableLen) < fuel) :
    ∃ out, sortParallel threshold fuel input tableLen true = some out ∧
      out.Perm (input.take tableLen) ∧ KeysAscending out := by
  have hready := seed_ready input tableLen hlen h32 hkeys
  have hmax := maxKey_lt_of_forall_lt (input.take tableLen) 1073741824 (by decide) hkeys
  have hmm := minKey_le_maxKey (input.take tableLen)
  have hwidth : ((newHostSeq.setInitSeq tableLen (wrapInt (minKey (input.take tableLen)))
      (wrapInt (maxKey (input.take tableLen)))).maxVal
      - (newHostSeq.setInitSeq tableLen (wrapInt (minKey (input.take tableLen)))
        (wrapInt (maxKey (input.take tableLen)))).minVal).toNat < fuel := by
    show (wrapInt (maxKey (input.take tableLen)) - wrapInt (minKey (input.take tableLen))).toNat
      < fuel
    rw [wrapInt_of_range _ (by omega) (by omega), wrapInt_of_range _ (by omega) (by omega)]
    omega
  obtain ⟨after, res, hrun, hframe, hperm, hsorted, hread⟩ :=
    runSequence_sorts threshold tableLen fuel _ _ hready hwidth
  have hout : after.dataOutput.length = tableLen := by
    rw [hframe.2.2.1]
    exact List.length_replicate _ _
  have hres : after.dataOutput = res := by
    rw [← hread]
    exact (readRange_all _ _ hout).symm
  have hlive : liveRecords
      (newHostSeq.setInitSeq tableLen (wrapInt (minKey (input.take tableLen)))
        (wrapInt (maxKey (input.take tableLen))))
      { dataInput := input.take tableLen, dataBuffer := List.replicate tableLen default,
        dataOutput := List.replicate tableLen default } = input.take tableLen :=
    readRange_all _ _ hready.input
  rw [hlive] at hperm
  refine ⟨after.dataOutput, ?_, hres ▸ hperm, hres ▸ hsorted⟩
  simp only [sortParallel, hrun, if_true]

/-- The reference sorter returns the first `tableLen` records of the input in
ascending key order. -/
theorem sortCorrect_ascending (table : List el_t) (tableLen : Nat) :
    (sortCorrect table tableLen).Perm (table.take tableLen) ∧
      KeysAscending (sortCorrect table tableLen) :=
  ⟨List.perm_insertionSort _ _, List.sorted_insertionSort _ _⟩

/-- Two tables with the same records, both in ascending key order, have the
same keys at every index. -/
theorem keys_eq_of_perm_of_ascending (xs ys : List el_t) (hp : xs.Perm ys)
    (hx : KeysAscending xs) (hy : KeysAscending ys) :
    xs.map Element.key = ys.map Element.key := by
  refine List.eq_of_perm_of_sorted (r := fun a b : Nat => a ≤ b) (hp.map Element.key) ?_ ?_
  · exact List.pairwise_map.mpr hx
  · exact List.pairwise_map.mpr hy

theorem keyAt_eq_map_key (a : List el_t) (i : Nat) :
    keyAt a i = (a.map Element.key)[i]? := by
  simp [keyAt, List.getElem?_map]

/-- On a table whose keys are below `2^30`, with more rounds allowed than the
distance between the least and the greatest key, the ascending output of
`sortParallel` has as many records as the output of `sortCorrect` and the same
key at every index. -/
theorem sortParallel_keys (threshold fuel : Nat) (input : List el_t) (tableLen : Nat)
    (hlen : tableLen ≤ input.length) (h32 : tableLen < 4294967296)
    (hkeys : ∀ e ∈ input.take tableLen, e.key < 1073741824)
    (hfuel : maxKey (input.take tableLen) - minKey (input.take tableLen) < fuel) :
    ∃ out, sortParallel threshold fuel input tableLen true = some out ∧
      out.length = (sortCorrect input tableLen).length ∧
      ∀ i, keyAt out i = keyAt (sortCorrect input tableLen) i := by
  obtain ⟨out, hrun, hperm, hsorted⟩ :=
    sortParallel_sorts threshold fuel input tableLen hlen h32 hkeys hfuel
  have hc := sortCorrect_ascending input tableLen
  refine ⟨out, hrun, (hperm.trans hc.1.symm).length_eq, fun i => ?_⟩
  rw [keyAt_eq_map_key, keyAt_eq_map_key,
    keys_eq_of_perm_of_ascending out _ (hperm.trans hc.1.symm) hsorted hc.2]

/-- The driver, for every local sort threshold and every budget above 90 (the
distance between the least and the greatest key of its table): `sortParallel`
returns a table, both tables are printed in full (two rows of eight cells
each), and the output of `main` is these two prints, a line feed and the
report "Arrays are the same". -/
theorem main_reports_same (threshold fuel : Nat) (hfuel : 90 < fuel) :
    ∃ (outputParallel : List el_t) (shown sorted : PrintTrace),
      sortParallel threshold fuel input 8 true = some outputParallel ∧
      printTable fuel input 8 = .ok shown ∧ shown.out.length = 18 ∧
      printTable fuel outputParallel 8 = .ok sorted ∧ sorted.out.length = 18 ∧
      compareArrays fuel outputParallel (sortCorrect input 8) 8 = .ok [.arraysSame] ∧
      main threshold fuel = .ok (shown.out ++ sorted.out ++ [.newline] ++ [.arraysSame]) := by
  obtain ⟨out, hrun, hlenEq, hkeys⟩ := sortParallel_keys threshold fuel input 8
    (by decide) (by decide) (by decide) (by
      have : maxKey (input.take 8) - minKey (input.take 8) = 90 := by decide
      omega)
  have hlenC : (sortCorrect input 8).length = 8 :=
    (sortCorrect_ascending input 8).1.length_eq
  have hlenP : out.length = 8 := by rw [hlenEq, hlenC]
  have hcmp : compareArrays fuel out (sortCorrect input 8) 8 = .ok [.arraysSame] :=
    compareLoop_same _ _ 8 (by omega) (by omega) (by decide) fuel 0 (by omega)
      (fun j _ _ => hkeys j)
  obtain ⟨r1, hr1, _, hout1⟩ := printTable_returns fuel input 8 (by decide) (by decide)
    (by decide) (by omega)
  obtain ⟨r2, hr2, _, hout2⟩ := printTable_returns fuel out 8
    (by decide) (by decide) (by omega) (by omega)
  refine ⟨out, r1, r2, hrun, hr1, hout1, hr2, hout2, hcmp, ?_⟩
  have h8 : 1 <<< 3 = 8 := by decide
  simp only [main, h8, hrun, hr1, hr2, hcmp]

/-- The output of the driver with a local sort threshold of 2 and a budget of
100, call by call. -/
theorem main_output_at_threshold_two :
    main 2 100 = .ok
      [.cell 2 ", ", .cell 22 ", ", .cell 24 ", ", .cell 92 ", ", .cell 46 ", ",
       .cell 29 ", ", .cell 78 ", ", .cell 12 "", .rowEnd,
       .cell 0 ", ", .cell 1 ", ", .cell 2 ", ", .cell 3 ", ", .cell 4 ", ",
       .cell 5 ", ", .cell 6 ", ", .cell 7 "", .rowEnd,
       .cell 2 ", ", .cell 12 ", ", .cell 22 ", ", .cell 24 ", ", .cell 29 ", ",
       .cell 46 ", ", .cell 78 ", ", .cell 92 "", .rowEnd,
       .cell 0 ", ", .cell 7 ", ", .cell 1 ", ", .cell 2 ", ", .cell 5 ", ",
       .cell 4 ", ", .cell 6 ", ", .cell 3 "", .rowEnd,
       .newline, .arraysSame] := by
  decide

/-! ### Tables above every threshold whose bounds overflow -/

end BitonicSort
